import Mathlib

/-!
# MVCC staging table (`common/mvccdb/staging_table.go`)

A shallow embedding of the staging table of go-nebulas and a verification of its
merge / materialisation contract.

Modelling conventions.

* A Go `map[K]V` is an association list with unique keys (`AList`).  The order of the
  entries stands for the order in which `range` visits the map; every statement is
  quantified over all association lists, hence over every visiting order.
* A Go pointer `*VersionizedValueItem` is an `Option`: `none` is the `nil` pointer.  A map
  slot may hold `nil`, so a map sends a key to `Option VersionizedValueItem`.
* Every pointer stored in a map slot is freshly allocated (`NewDefaultVersionizedValueItem`,
  `IncrVersionizedValueItem`, `CloneForFinal`) and is stored in exactly one slot, so the
  in-place field writes of `Put` and `Del` are embedded as a write-back into that one slot.
* A function that may dereference a `nil` pointer returns an `Option` whose `none` is the
  runtime panic.  The writes that `MergeToFinal` has made in place before it panics are kept:
  `mergeValues` returns the Final Store map as the loop leaves it, and `MergeToFinalLeaves` is
  the table that the call leaves behind, returned or not.
* Go's `int` is embedded as `Int`: the only arithmetic is `new + 1` on a revision counter
  that starts at `0`, so the machine wrap-around is not part of the model.
* The two mutexes and the logging calls have no effect on a sequential run and are left out.
-/

namespace Mvccdb

/-- A Go byte slice. -/
abbrev Bytes := List (Fin 256)

/-- One lowercase hexadecimal digit. -/
def hexDigit (n : Nat) : Char :=
  if n < 10 then Char.ofNat (48 + n) else Char.ofNat (87 + n)

/-- Modelled from the spec: `byteutils.Hex`, the canonical byte-to-string key encoding (its
source is not part of the files at hand); two lowercase hexadecimal digits per byte. -/
def Hex (data : Bytes) : String :=
  String.mk (data.flatMap fun b => [hexDigit (b.val / 16), hexDigit (b.val % 16)])

/-- The struct `VersionizedValueItem`: a key/value pair with version, dirty and deleted
flags.  The owner `tid` is an empty-interface value: `none` is `nil`. -/
structure VersionizedValueItem (T : Type) where
  tid : Option T
  key : Bytes
  val : Option Bytes
  old : Int
  new : Int
  dirty : Bool
  deleted : Bool
deriving DecidableEq, Repr

/-- The type `stagingValuesMap`, `map[string]*VersionizedValueItem`. -/
abbrev stagingValuesMap (T : Type) := AList (fun _ : String => Option (VersionizedValueItem T))

/-- The struct `StagingTable`.  `allVersionizedValues` is only ever indexed with a non-nil
identifier, so its keys are of type `T`. -/
structure StagingTable (T : Type) where
  allVersionizedValues : AList (fun _ : T => stagingValuesMap T)
  finalVersionizedValue : stagingValuesMap T

set_option linter.unusedSectionVars false

variable {T : Type} [DecidableEq T]

/-- The error value `ErrStagingTableKeyConfliction`. -/
inductive MergeError where
  | ErrStagingTableKeyConfliction
deriving DecidableEq, Repr

/-- The Go index expression `m[keyStr]` on a `stagingValuesMap`: `nil` both for a missing key
and for a slot that holds `nil`. -/
def mapIndex (m : stagingValuesMap T) (keyStr : String) : Option (VersionizedValueItem T) :=
  (m.lookup keyStr).join

/-- The constructor `NewStagingTable`: both maps empty. -/
def NewStagingTable : StagingTable T :=
  { allVersionizedValues := ∅, finalVersionizedValue := ∅ }

/-- The function `NewDefaultVersionizedValueItem`: old/new version are 0, dirty is false. -/
def NewDefaultVersionizedValueItem (key : Bytes) : VersionizedValueItem T :=
  { tid := none, key := key, val := none, old := 0, new := 0, deleted := false, dirty := false }

/-- The function `IncrVersionizedValueItem`: copy with the version increased. -/
def IncrVersionizedValueItem (tid : Option T) (oldValue : VersionizedValueItem T) :
    VersionizedValueItem T :=
  { tid := tid, key := oldValue.key, val := oldValue.val, old := oldValue.new,
    new := oldValue.new + 1, deleted := false, dirty := false }

/-- The method `CloneForFinal`: shallow copy with dirty false. -/
def VersionizedValueItem.CloneForFinal (value : VersionizedValueItem T) :
    VersionizedValueItem T :=
  { tid := value.tid, key := value.key, val := value.val, old := value.old, new := value.new,
    deleted := value.deleted, dirty := false }

/-- The method `getVersionizedValuesOfTid`: the final map for the `nil` identifier, otherwise the
identifier's own map, created empty when it does not exist yet.  The table is returned as
well because the creation is a write to `allVersionizedValues`. -/
def getVersionizedValuesOfTid (tbl : StagingTable T) (tid : Option T) :
    stagingValuesMap T × StagingTable T :=
  match tid with
  | none => (tbl.finalVersionizedValue, tbl)
  | some t =>
    match tbl.allVersionizedValues.lookup t with
    | some tidValues => (tidValues, tbl)
    | none => (∅, { tbl with allVersionizedValues := tbl.allVersionizedValues.insert t ∅ })

/-- The map that the reference returned by `getVersionizedValuesOfTid` points to, read in the
current table. -/
def tidValuesOf (tbl : StagingTable T) (tid : Option T) : stagingValuesMap T :=
  match tid with
  | none => tbl.finalVersionizedValue
  | some t => (tbl.allVersionizedValues.lookup t).getD ∅

/-- A write `tidValues[keyStr] = value` through the reference returned by
`getVersionizedValuesOfTid`. -/
def setTidValue (tbl : StagingTable T) (tid : Option T) (keyStr : String)
    (value : Option (VersionizedValueItem T)) : StagingTable T :=
  match tid with
  | none => { tbl with finalVersionizedValue := tbl.finalVersionizedValue.insert keyStr value }
  | some t =>
    { tbl with
      allVersionizedValues :=
        tbl.allVersionizedValues.insert t ((tidValuesOf tbl (some t)).insert keyStr value) }

/-- The method `getAndIncrValueFromFinalVersionValue`: the increment of the latest value of the
Final Store, which is created at version 0 first when absent and `createIfNotExist` is set;
`nil` when there is no latest value. -/
def getAndIncrValueFromFinalVersionValue (tbl : StagingTable T) (tid : Option T)
    (keyStr : String) (key : Bytes) (createIfNotExist : Bool) :
    Option (VersionizedValueItem T) × StagingTable T :=
  let latestValue := mapIndex tbl.finalVersionizedValue keyStr
  let r : Option (VersionizedValueItem T) × StagingTable T :=
    if latestValue.isNone && createIfNotExist then
      (some (NewDefaultVersionizedValueItem key),
        { tbl with
          finalVersionizedValue :=
            tbl.finalVersionizedValue.insert keyStr (some (NewDefaultVersionizedValueItem key)) })
    else
      (latestValue, tbl)
  match r.1 with
  | some latestValue1 => (some (IncrVersionizedValueItem tid latestValue1), r.2)
  | none => (none, r.2)

/-- The method `getVersionizedValueForUpdate`: the value that the map of `tid` holds for the
key, otherwise the value derived from the Final Store, which is stored in the map of `tid`
(also when it is `nil`). -/
def getVersionizedValueForUpdate (tbl : StagingTable T) (tid : Option T) (key : Bytes)
    (createIfNotExist : Bool) : Option (VersionizedValueItem T) × StagingTable T :=
  let keyStr := Hex key
  let r := getVersionizedValuesOfTid tbl tid
  match mapIndex r.1 keyStr with
  | some value => (some value, r.2)
  | none =>
    let g := getAndIncrValueFromFinalVersionValue r.2 tid keyStr key createIfNotExist
    (g.1, setTidValue g.2 tid keyStr g.1)

/-- The method `Get`. -/
def Get (tbl : StagingTable T) (tid : Option T) (key : Bytes) :
    Option (VersionizedValueItem T) × StagingTable T :=
  getVersionizedValueForUpdate tbl tid key false

/-- The method `Put`.  The result `none` is the panic of writing a field through a `nil` pointer. -/
def Put (tbl : StagingTable T) (tid : Option T) (key : Bytes) (val : Option Bytes)
    (dirty : Bool) : Option (VersionizedValueItem T × StagingTable T) :=
  let r := getVersionizedValueForUpdate tbl tid key true
  match r.1 with
  | none => none
  | some value =>
    let value1 := { value with val := val, dirty := dirty }
    some (value1, setTidValue r.2 tid (Hex key) (some value1))

/-- The method `Del`.  The result `none` is the panic of writing a field through a `nil` pointer. -/
def Del (tbl : StagingTable T) (tid : Option T) (key : Bytes) :
    Option (VersionizedValueItem T × StagingTable T) :=
  let r := getVersionizedValueForUpdate tbl tid key true
  match r.1 with
  | none => none
  | some value =>
    let value1 := { value with deleted := true, dirty := true }
    some (value1, setTidValue r.2 tid (Hex key) (some value1))

/-- The method `Purge`. -/
def Purge (tbl : StagingTable T) (tid : Option T) : StagingTable T :=
  match tid with
  | none => tbl
  | some t => { tbl with allVersionizedValues := tbl.allVersionizedValues.erase t }

/-- The first loop of `MergeToFinal` ("1. check version"), over the entries still to visit,
with the running `dependentTids` and `conflictKeys`.  `none`: reading `tidValueItem.dirty`
through a `nil` pointer. -/
def checkVersion (finalValues : stagingValuesMap T) :
    List (Σ _ : String, Option (VersionizedValueItem T)) →
    List (Option T) → List (String × Option T) →
    Option (List (Option T) × List (String × Option T))
  | [], dependentTids, conflictKeys => some (dependentTids, conflictKeys)
  | ⟨keyStr, tidValueItem⟩ :: rest, dependentTids, conflictKeys =>
    match mapIndex finalValues keyStr with
    | none => checkVersion finalValues rest dependentTids conflictKeys
    | some finalValueItem =>
      match tidValueItem with
      | none => none
      | some item =>
        if item.dirty = false then
          checkVersion finalValues rest dependentTids conflictKeys
        else if item.old ≠ finalValueItem.new then
          checkVersion finalValues rest dependentTids
            (conflictKeys ++ [(keyStr, finalValueItem.tid)])
        else
          checkVersion finalValues rest (dependentTids ++ [finalValueItem.tid]) conflictKeys

/-- The second loop of `MergeToFinal` ("2. merge to final"), over the entries still to visit:
the Final Store map as the loop leaves it, and whether the loop ran to its end.  The loop
assigns to `finalValues` in place, entry by entry, so when it panics on reading
`tidValueItem.dirty` through a `nil` pointer (`false`) the installs made so far stay.  The
source comment above the test reads "ignore dirty", while the test skips the entries that are
not dirty. -/
def mergeValues :
    List (Σ _ : String, Option (VersionizedValueItem T)) → stagingValuesMap T →
    stagingValuesMap T × Bool
  | [], finalValues => (finalValues, true)
  | ⟨_, none⟩ :: _, finalValues => (finalValues, false)
  | ⟨keyStr, some item⟩ :: rest, finalValues =>
    if item.dirty = false then mergeValues rest finalValues
    else mergeValues rest (finalValues.insert keyStr (some item.CloneForFinal))

/-- The Final Store map that the second loop has built when it runs to its end; `none` when it
panics. -/
def mergeValuesDone (l : List (Σ _ : String, Option (VersionizedValueItem T)))
    (finalValues : stagingValuesMap T) : Option (stagingValuesMap T) :=
  if (mergeValues l finalValues).2 = true then some (mergeValues l finalValues).1 else none

/-- The method `MergeToFinal`, as a call that returns.  The result is the returned pair, the
slice of dependent identifiers and the error (a `nil` slice is `none`, a `nil` error is
`none`), together with the table after the call; `none` is a panic, and the table that a
panicking call leaves behind is given by `MergeToFinalLeaves`. -/
def MergeToFinal (tbl : StagingTable T) (tid : Option T) :
    Option ((Option (List (Option T)) × Option MergeError) × StagingTable T) :=
  let r := getVersionizedValuesOfTid tbl tid
  let finalValues := r.2.finalVersionizedValue
  let tidValues := r.1
  match checkVersion finalValues tidValues.entries [] [] with
  | none => none
  | some (dependentTids, conflictKeys) =>
    if conflictKeys.length > 0 then
      some ((none, some MergeError.ErrStagingTableKeyConfliction), r.2)
    else
      match mergeValuesDone tidValues.entries finalValues with
      | none => none
      | some finalValues1 =>
        some ((some dependentTids, none), { r.2 with finalVersionizedValue := finalValues1 })

/-- The table that `MergeToFinal` leaves behind, whether the call returns or panics: the first
loop writes nothing, and the second loop has written the Final Store in place up to its end or
up to the panic. -/
def MergeToFinalLeaves (tbl : StagingTable T) (tid : Option T) : StagingTable T :=
  let r := getVersionizedValuesOfTid tbl tid
  let finalValues := r.2.finalVersionizedValue
  let tidValues := r.1
  match checkVersion finalValues tidValues.entries [] [] with
  | none => r.2
  | some (_, conflictKeys) =>
    if conflictKeys.length > 0 then r.2
    else { r.2 with finalVersionizedValue := (mergeValues tidValues.entries finalValues).1 }

/-- The five operations of the table, as data. -/
inductive Op (T : Type) where
  | Get (tid : Option T) (key : Bytes)
  | Put (tid : Option T) (key : Bytes) (val : Option Bytes) (dirty : Bool)
  | Del (tid : Option T) (key : Bytes)
  | Purge (tid : Option T)
  | MergeToFinal (tid : Option T)
deriving DecidableEq, Repr

/-- One call on the table, as a call that returns; `none` when the call panics (only
`MergeToFinal` can, and `MergeToFinalLeaves` is the table that it then leaves behind). -/
def step (tbl : StagingTable T) : Op T → Option (StagingTable T)
  | Op.Get tid key => some (Get tbl tid key).2
  | Op.Put tid key val dirty => (Put tbl tid key val dirty).map Prod.snd
  | Op.Del tid key => (Del tbl tid key).map Prod.snd
  | Op.Purge tid => some (Purge tbl tid)
  | Op.MergeToFinal tid => (MergeToFinal tbl tid).map Prod.snd

/-- A sequence of calls, one after the other; `none` when one of them panics. -/
def run : StagingTable T → List (Op T) → Option (StagingTable T)
  | tbl, [] => some tbl
  | tbl, o :: os => (step tbl o).bind fun tbl1 => run tbl1 os

/-- The states reachable from `NewStagingTable` by calls of the five operations. -/
def Reachable (tbl : StagingTable T) : Prop :=
  ∃ ops : List (Op T), run NewStagingTable ops = some tbl

/-- The identifier that a call is made with. -/
def Op.tid : Op T → Option T
  | Op.Get tid _ => tid
  | Op.Put tid _ _ _ => tid
  | Op.Del tid _ => tid
  | Op.Purge tid => tid
  | Op.MergeToFinal tid => tid

/-- The three staged accesses of one `(tid, key)`, as data. -/
inductive Access where
  | Get
  | Put (val : Option Bytes) (dirty : Bool)
  | Del
deriving DecidableEq, Repr

/-- One staged access: the returned pointer and the table after the call; `none` when the call
panics. -/
def access (tbl : StagingTable T) (tid : Option T) (key : Bytes) :
    Access → Option (Option (VersionizedValueItem T) × StagingTable T)
  | Access.Get => some (Get tbl tid key)
  | Access.Put val dirty => (Put tbl tid key val dirty).map fun r => (some r.1, r.2)
  | Access.Del => (Del tbl tid key).map fun r => (some r.1, r.2)

/-- The entry that a staged write of `(tid, key)` starts from, in the words of the
specification: the entry as it was before the call when the view of `tid` holds one, otherwise
the entry as materialised, that is, the increment of the Final Store entry of the key, or of a
fresh zero-version entry when the Final Store has none. -/
def baseEntry (tbl : StagingTable T) (tid : Option T) (key : Bytes) : VersionizedValueItem T :=
  match mapIndex (tidValuesOf tbl tid) (Hex key) with
  | some e => e
  | none =>
    IncrVersionizedValueItem tid
      ((mapIndex tbl.finalVersionizedValue (Hex key)).getD (NewDefaultVersionizedValueItem key))

/-- A written entry whose baseline differs from the assigned version of the Final Store
entry of its key. -/
def Conflicting (finalValues : stagingValuesMap T) (keyStr : String)
    (tidValueItem : Option (VersionizedValueItem T)) : Prop :=
  ∃ e f, tidValueItem = some e ∧ e.dirty = true ∧ mapIndex finalValues keyStr = some f
    ∧ e.old ≠ f.new

/-- The view of `t` is fresh for the key: the entry that it holds for the key, if any, has as
baseline the assigned version of the Final Store entry of the key. -/
def Fresh (tbl : StagingTable T) (t : T) (keyStr : String) : Prop :=
  ∀ e, mapIndex (tidValuesOf tbl (some t)) keyStr = some e →
    ∃ f, mapIndex tbl.finalVersionizedValue keyStr = some f ∧ e.old = f.new

/-- Every entry of every view has, as assigned version, its baseline plus one. -/
def ViewVersions (tbl : StagingTable T) : Prop :=
  ∀ (t : T) (keyStr : String) (e : VersionizedValueItem T),
    mapIndex (tidValuesOf tbl (some t)) keyStr = some e → e.new = e.old + 1

/-- From `tbl` to `tbl1` the Final Store entry of the key, if there is one, keeps its assigned
version. -/
def FinalKeeps (keyStr : String) (tbl tbl1 : StagingTable T) : Prop :=
  ∀ f, mapIndex tbl.finalVersionizedValue keyStr = some f →
    ∃ f1, mapIndex tbl1.finalVersionizedValue keyStr = some f1 ∧ f1.new = f.new

/-- From `tbl` to `tbl1` the entry that the view of `t` holds for the key either was there
before with the same versions, or is derived from the Final Store entry of the key. -/
def ViewOrigin (t : T) (keyStr : String) (tbl tbl1 : StagingTable T) : Prop :=
  ∀ e, mapIndex (tidValuesOf tbl1 (some t)) keyStr = some e →
    (∃ e0, mapIndex (tidValuesOf tbl (some t)) keyStr = some e0 ∧ e0.old = e.old
      ∧ e0.new = e.new)
    ∨ (∃ f, mapIndex tbl1.finalVersionizedValue keyStr = some f ∧ e.old = f.new
      ∧ e.new = f.new + 1)

/-- Every entry of the Final Store is a zero-version baseline or has, as assigned version, its
baseline plus one. -/
def FinalVersions (tbl : StagingTable T) : Prop :=
  ∀ (keyStr : String) (f : VersionizedValueItem T),
    mapIndex tbl.finalVersionizedValue keyStr = some f →
      (f.old = 0 ∧ f.new = 0) ∨ f.new = f.old + 1

/-- From `tbl` to `tbl1` the entry that the Final Store holds for the key either was there
before with the same versions, or is a zero-version baseline, or is an increment. -/
def FinalOrigin (keyStr : String) (tbl tbl1 : StagingTable T) : Prop :=
  ∀ f1, mapIndex tbl1.finalVersionizedValue keyStr = some f1 →
    (∃ f, mapIndex tbl.finalVersionizedValue keyStr = some f ∧ f.old = f1.old
      ∧ f.new = f1.new)
    ∨ (f1.old = 0 ∧ f1.new = 0) ∨ f1.new = f1.old + 1

/-- No view runs ahead of the Final Store: for every entry that a view holds, the Final Store
holds an entry for the key, and the baseline of the former is at most the assigned version of
the latter. -/
def ViewsBehind (tbl : StagingTable T) : Prop :=
  ∀ (t : T) (keyStr : String) (e : VersionizedValueItem T),
    mapIndex (tidValuesOf tbl (some t)) keyStr = some e →
      ∃ f, mapIndex tbl.finalVersionizedValue keyStr = some f ∧ e.old ≤ f.new

/-- Whether the call `o`, made on `tbl`, merges a write to the key: it is a `MergeToFinal` of a
non-nil identifier that succeeds and whose view holds the key with write intent. -/
def mergesWriteTo (tbl : StagingTable T) (keyStr : String) : Op T → Bool
  | Op.MergeToFinal (some u) =>
    match MergeToFinal tbl (some u) with
    | some ((_, none), _) =>
      match mapIndex (tidValuesOf tbl (some u)) keyStr with
      | some e => e.dirty
      | none => false
    | _ => false
  | _ => false

/-- No call of the sequence, run from `tbl`, merges a write to the key. -/
def noMergedWrite (keyStr : String) : StagingTable T → List (Op T) → Bool
  | _, [] => true
  | tbl, o :: os =>
    !mergesWriteTo tbl keyStr o &&
      match step tbl o with
      | some tbl1 => noMergedWrite keyStr tbl1 os
      | none => true

/-- What the first loop of `MergeToFinal` appends to `dependentTids` at one entry of the
view. -/
def dependentOf (finalValues : stagingValuesMap T)
    (x : Σ _ : String, Option (VersionizedValueItem T)) : Option (Option T) :=
  match mapIndex finalValues x.1, x.2 with
  | some f, some e => if e.dirty = true ∧ e.old = f.new then some f.tid else none
  | _, _ => none

/-- What the first loop of `MergeToFinal` records in `conflictKeys` at one entry of the
view. -/
def conflictOf (finalValues : stagingValuesMap T)
    (x : Σ _ : String, Option (VersionizedValueItem T)) : Option (String × Option T) :=
  match mapIndex finalValues x.1, x.2 with
  | some f, some e => if e.dirty = true ∧ e.old ≠ f.new then some (x.1, f.tid) else none
  | _, _ => none

/-- The dependent identifier of one entry of the view, in the words of the specification: for
a key that the view holds with write intent and that has a Final Store entry, the owner of that
Final Store entry; nothing otherwise. -/
def writtenOwner (finalValues : stagingValuesMap T)
    (x : Σ _ : String, Option (VersionizedValueItem T)) : Option (Option T) :=
  match x.2, mapIndex finalValues x.1 with
  | some e, some f => if e.dirty = true then some f.tid else none
  | _, _ => none

/-- The two mutexes of `StagingTable`. -/
inductive Mutex where
  | tidMutex
  | finalVersionizedValueMutex
deriving DecidableEq, Repr

/-- One lock event of a call: `m.Lock()` or `m.Unlock()`. -/
inductive LockEvent where
  | Lock (m : Mutex)
  | Unlock (m : Mutex)
deriving DecidableEq, Repr

/-- The lock events of `getVersionizedValuesOfTid`: none for the `nil` identifier, which returns
before the lock; otherwise `tbl.tidMutex.Lock()` and the deferred `Unlock` at the return. -/
def getVersionizedValuesOfTidLocks (tid : Option T) : List LockEvent :=
  match tid with
  | none => []
  | some _ => [LockEvent.Lock Mutex.tidMutex, LockEvent.Unlock Mutex.tidMutex]

/-- The lock events of `getAndIncrValueFromFinalVersionValue`:
`tbl.finalVersionizedValueMutex.Lock()` and the deferred `Unlock` at the return. -/
def getAndIncrValueFromFinalVersionValueLocks : List LockEvent :=
  [LockEvent.Lock Mutex.finalVersionizedValueMutex,
    LockEvent.Unlock Mutex.finalVersionizedValueMutex]

/-- The lock events of `getVersionizedValueForUpdate`: those of `getVersionizedValuesOfTid`,
followed, when the map of `tid` holds no value for the key, by those of
`getAndIncrValueFromFinalVersionValue`. -/
def getVersionizedValueForUpdateLocks (tbl : StagingTable T) (tid : Option T) (key : Bytes) :
    List LockEvent :=
  getVersionizedValuesOfTidLocks tid ++
    match mapIndex (getVersionizedValuesOfTid tbl tid).1 (Hex key) with
    | some _ => []
    | none => getAndIncrValueFromFinalVersionValueLocks

/-- The lock events of `Purge`: none for the `nil` identifier; otherwise `tbl.tidMutex.Lock()`
and the deferred `Unlock`. -/
def PurgeLocks (tid : Option T) : List LockEvent :=
  match tid with
  | none => []
  | some _ => [LockEvent.Lock Mutex.tidMutex, LockEvent.Unlock Mutex.tidMutex]

/-- The lock events of `MergeToFinal`: `tbl.finalVersionizedValueMutex.Lock()` at the entry, the
events of the call of `getVersionizedValuesOfTid`, and the deferred `Unlock` at the exit, which
also runs when the call panics. -/
def MergeToFinalLocks (tid : Option T) : List LockEvent :=
  [LockEvent.Lock Mutex.finalVersionizedValueMutex] ++ getVersionizedValuesOfTidLocks tid ++
    [LockEvent.Unlock Mutex.finalVersionizedValueMutex]

/-- The lock events of one call on the table. -/
def lockEvents (tbl : StagingTable T) : Op T → List LockEvent
  | Op.Get tid key => getVersionizedValueForUpdateLocks tbl tid key
  | Op.Put tid key _ _ => getVersionizedValueForUpdateLocks tbl tid key
  | Op.Del tid key => getVersionizedValueForUpdateLocks tbl tid key
  | Op.Purge tid => PurgeLocks tid
  | Op.MergeToFinal tid => MergeToFinalLocks tid

/-- The other mutex. -/
def Mutex.other : Mutex → Mutex
  | Mutex.tidMutex => Mutex.finalVersionizedValueMutex
  | Mutex.finalVersionizedValueMutex => Mutex.tidMutex

/-- Whether, starting with the locks `held`, no lock of the event list is acquired while the
other lock is held. -/
def neverNested : List Mutex → List LockEvent → Bool
  | _, [] => true
  | held, LockEvent.Lock m :: rest =>
    !held.contains m.other && neverNested (m :: held) rest
  | held, LockEvent.Unlock m :: rest => neverNested (held.erase m) rest

/-- Whether, starting with the locks `held`, the Final-Store lock is never acquired while the
identifier-index lock is held. -/
def finalNeverUnderTid : List Mutex → List LockEvent → Bool
  | _, [] => true
  | held, LockEvent.Lock m :: rest =>
    !(m == Mutex.finalVersionizedValueMutex && held.contains Mutex.tidMutex)
      && finalNeverUnderTid (m :: held) rest
  | held, LockEvent.Unlock m :: rest => finalNeverUnderTid (held.erase m) rest

/-- The table that a sequence of calls leaves behind when it is run on a new table with
natural numbers as identifiers (the new table itself if a call panics). -/
def tableAfter (ops : List (Op Nat)) : StagingTable Nat :=
  (run NewStagingTable ops).getD NewStagingTable

/-- The key `K` of the scenarios. -/
def keyK : Bytes := [75]

/-- A second key. -/
def keyL : Bytes := [76]

/-- Two transactions put `K` on a new table, then the first one merges. -/
def conflictTable : StagingTable Nat :=
  tableAfter [Op.Put (some 1) keyK (some [97]) true, Op.Put (some 2) keyK (some [98]) true,
    Op.MergeToFinal (some 1)]

/-- A transaction reads a key that the Final Store does not have. -/
def absentReadTable : StagingTable Nat :=
  tableAfter [Op.Get (some 1) keyK]

/-- Transaction 1 reads the absent key `L` and writes `K`; transaction 2 writes both keys and
merges. -/
def staleReadTable : StagingTable Nat :=
  tableAfter [Op.Get (some 1) keyL, Op.Put (some 1) keyK (some [97]) true,
    Op.Put (some 2) keyK (some [98]) true, Op.Put (some 2) keyL (some [99]) true,
    Op.MergeToFinal (some 2)]

/-- A transaction materialises `K`, then `K` is written with the `nil` identifier, that is,
directly in the Final Store. -/
def directWriteTable : StagingTable Nat :=
  tableAfter [Op.Put (some 1) keyK (some [97]) false, Op.Put none keyK (some [98]) true]

/-- A transaction writes `K` on a new table. -/
def singleWriteTable : StagingTable Nat :=
  tableAfter [Op.Put (some 1) keyK (some [97]) true]

/-- Transaction 1 reads the absent key `L`, then both transactions write `K`. -/
def raceTable : StagingTable Nat :=
  tableAfter [Op.Get (some 1) keyL, Op.Put (some 1) keyK (some [97]) true,
    Op.Put (some 2) keyK (some [98]) true]

/-- A transaction writes `K` and merges. -/
def mergedTable : StagingTable Nat :=
  tableAfter [Op.Put (some 1) keyK (some [97]) true, Op.MergeToFinal (some 1)]

/-- Transaction 1 writes `K`; transaction 2 writes `L` and merges. -/
def disjointWritesTable : StagingTable Nat :=
  tableAfter [Op.Put (some 1) keyK (some [97]) true, Op.Put (some 2) keyL (some [99]) true,
    Op.MergeToFinal (some 2)]

/-- Transaction 2 writes `K` and merges; only then transaction 1 writes `K`. -/
def lateWriterTable : StagingTable Nat :=
  tableAfter [Op.Put (some 2) keyK (some [98]) true, Op.MergeToFinal (some 2),
    Op.Put (some 1) keyK (some [97]) true]

/-- Transaction 2 commits revision 1 of `K`; transaction 1 then reads `K` and the absent key `L`
and writes nothing. -/
def readOnlyTable : StagingTable Nat :=
  tableAfter [Op.Put (some 2) keyK (some [98]) true, Op.MergeToFinal (some 2),
    Op.Get (some 1) keyK, Op.Get (some 1) keyL]

/-! ## Maps -/

theorem mapIndex_insert_self (m : stagingValuesMap T) (k : String)
    (v : Option (VersionizedValueItem T)) : mapIndex (m.insert k v) k = v := by
  simp [mapIndex, AList.lookup_insert]

theorem mapIndex_insert_ne (m : stagingValuesMap T) {k k1 : String}
    (v : Option (VersionizedValueItem T)) (h : k1 ≠ k) :
    mapIndex (m.insert k v) k1 = mapIndex m k1 := by
  simp [mapIndex, AList.lookup_insert_ne h]

theorem mapIndex_eq_some_iff (m : stagingValuesMap T) (k : String) (e : VersionizedValueItem T) :
    mapIndex m k = some e ↔ m.lookup k = some (some e) := by
  unfold mapIndex
  cases h : m.lookup k with
  | none => simp
  | some v => cases v <;> simp

theorem mapIndex_empty (k : String) : mapIndex (∅ : stagingValuesMap T) k = none := by
  simp [mapIndex]

/-! ## `getVersionizedValuesOfTid` -/

theorem getVersionizedValuesOfTid_fst (tbl : StagingTable T) (tid : Option T) :
    (getVersionizedValuesOfTid tbl tid).1 = tidValuesOf tbl tid := by
  cases tid with
  | none => rfl
  | some t =>
    simp only [getVersionizedValuesOfTid, tidValuesOf]
    cases h : tbl.allVersionizedValues.lookup t <;> simp

theorem getVersionizedValuesOfTid_final (tbl : StagingTable T) (tid : Option T) :
    (getVersionizedValuesOfTid tbl tid).2.finalVersionizedValue = tbl.finalVersionizedValue := by
  cases tid with
  | none => rfl
  | some t =>
    simp only [getVersionizedValuesOfTid]
    cases h : tbl.allVersionizedValues.lookup t <;> simp

theorem getVersionizedValuesOfTid_tidValuesOf (tbl : StagingTable T) (tid tid1 : Option T) :
    tidValuesOf (getVersionizedValuesOfTid tbl tid).2 tid1 = tidValuesOf tbl tid1 := by
  cases tid with
  | none => rfl
  | some t =>
    simp only [getVersionizedValuesOfTid]
    cases h : tbl.allVersionizedValues.lookup t with
    | some m => rfl
    | none =>
      cases tid1 with
      | none => rfl
      | some t1 =>
        simp only [tidValuesOf]
        by_cases ht : t1 = t
        · subst ht; simp [AList.lookup_insert, h]
        · simp [AList.lookup_insert_ne ht]

theorem getVersionizedValuesOfTid_of_index (tbl : StagingTable T) (tid : Option T) (k : String)
    (e : VersionizedValueItem T) (h : mapIndex (tidValuesOf tbl tid) k = some e) :
    (getVersionizedValuesOfTid tbl tid).2 = tbl := by
  cases tid with
  | none => rfl
  | some t =>
    simp only [getVersionizedValuesOfTid]
    cases h1 : tbl.allVersionizedValues.lookup t with
    | some m => rfl
    | none => simp [tidValuesOf, h1, mapIndex] at h

theorem getVersionizedValuesOfTid_lookup_ne (tbl : StagingTable T) (t t1 : T) (h : t1 ≠ t) :
    (getVersionizedValuesOfTid tbl (some t)).2.allVersionizedValues.lookup t1
      = tbl.allVersionizedValues.lookup t1 := by
  simp only [getVersionizedValuesOfTid]
  cases h1 : tbl.allVersionizedValues.lookup t with
  | some m => rfl
  | none => simp [AList.lookup_insert_ne h]

/-! ## Writes through the map reference -/

theorem tidValuesOf_setTidValue_self (tbl : StagingTable T) (tid : Option T) (k : String)
    (v : Option (VersionizedValueItem T)) :
    tidValuesOf (setTidValue tbl tid k v) tid = (tidValuesOf tbl tid).insert k v := by
  cases tid with
  | none => rfl
  | some t => simp [tidValuesOf, setTidValue, AList.lookup_insert]

theorem setTidValue_final_some (tbl : StagingTable T) (t : T) (k : String)
    (v : Option (VersionizedValueItem T)) :
    (setTidValue tbl (some t) k v).finalVersionizedValue = tbl.finalVersionizedValue := rfl

theorem setTidValue_all_none (tbl : StagingTable T) (k : String)
    (v : Option (VersionizedValueItem T)) :
    (setTidValue tbl none k v).allVersionizedValues = tbl.allVersionizedValues := rfl

theorem setTidValue_lookup_ne (tbl : StagingTable T) (t t1 : T) (k : String)
    (v : Option (VersionizedValueItem T)) (h : t1 ≠ t) :
    (setTidValue tbl (some t) k v).allVersionizedValues.lookup t1
      = tbl.allVersionizedValues.lookup t1 := by
  simp [setTidValue, AList.lookup_insert_ne h]

theorem mapIndex_setTidValue_self (tbl : StagingTable T) (tid : Option T) (k : String)
    (v : Option (VersionizedValueItem T)) :
    mapIndex (tidValuesOf (setTidValue tbl tid k v) tid) k = v := by
  rw [tidValuesOf_setTidValue_self, mapIndex_insert_self]

/-! ## `getAndIncrValueFromFinalVersionValue` -/

theorem getAndIncr_all (tbl : StagingTable T) (tid : Option T) (k : String) (key : Bytes)
    (c : Bool) :
    (getAndIncrValueFromFinalVersionValue tbl tid k key c).2.allVersionizedValues
      = tbl.allVersionizedValues := by
  unfold getAndIncrValueFromFinalVersionValue
  cases h : mapIndex tbl.finalVersionizedValue k <;> cases c <;> simp

theorem getAndIncr_present (tbl : StagingTable T) (tid : Option T) (k : String) (key : Bytes)
    (c : Bool) (f : VersionizedValueItem T)
    (h : mapIndex tbl.finalVersionizedValue k = some f) :
    getAndIncrValueFromFinalVersionValue tbl tid k key c
      = (some (IncrVersionizedValueItem tid f), tbl) := by
  simp [getAndIncrValueFromFinalVersionValue, h]

theorem getAndIncr_absent_create (tbl : StagingTable T) (tid : Option T) (k : String)
    (key : Bytes) (h : mapIndex tbl.finalVersionizedValue k = none) :
    getAndIncrValueFromFinalVersionValue tbl tid k key true
      = (some (IncrVersionizedValueItem tid (NewDefaultVersionizedValueItem key)),
          { tbl with finalVersionizedValue :=
              tbl.finalVersionizedValue.insert k (some (NewDefaultVersionizedValueItem key)) })
      := by
  simp [getAndIncrValueFromFinalVersionValue, h]

theorem getAndIncr_absent_read (tbl : StagingTable T) (tid : Option T) (k : String)
    (key : Bytes) (h : mapIndex tbl.finalVersionizedValue k = none) :
    getAndIncrValueFromFinalVersionValue tbl tid k key false = (none, tbl) := by
  simp [getAndIncrValueFromFinalVersionValue, h]

/-- With creation permitted the materialisation always yields an entry. -/
theorem getAndIncr_create_isSome (tbl : StagingTable T) (tid : Option T) (k : String)
    (key : Bytes) :
    ∃ e, (getAndIncrValueFromFinalVersionValue tbl tid k key true).1 = some e := by
  cases h : mapIndex tbl.finalVersionizedValue k with
  | none => rw [getAndIncr_absent_create tbl tid k key h]; exact ⟨_, rfl⟩
  | some f => rw [getAndIncr_present tbl tid k key true f h]; exact ⟨_, rfl⟩

/-! ## `getVersionizedValueForUpdate` -/

/-- An entry that the view holds is returned as it is, and the table stays as it is. -/
theorem getVersionizedValueForUpdate_held (tbl : StagingTable T) (tid : Option T) (key : Bytes)
    (c : Bool) (e : VersionizedValueItem T)
    (h : mapIndex (tidValuesOf tbl tid) (Hex key) = some e) :
    getVersionizedValueForUpdate tbl tid key c = (some e, tbl) := by
  unfold getVersionizedValueForUpdate
  simp only [getVersionizedValuesOfTid_fst, h]
  rw [getVersionizedValuesOfTid_of_index tbl tid (Hex key) e h]

/-- Without an entry in the view the entry is derived from the Final Store and stored in the
view. -/
theorem getVersionizedValueForUpdate_not_held (tbl : StagingTable T) (tid : Option T)
    (key : Bytes) (c : Bool) (h : mapIndex (tidValuesOf tbl tid) (Hex key) = none) :
    getVersionizedValueForUpdate tbl tid key c
      = ((getAndIncrValueFromFinalVersionValue (getVersionizedValuesOfTid tbl tid).2 tid
            (Hex key) key c).1,
          setTidValue (getAndIncrValueFromFinalVersionValue (getVersionizedValuesOfTid tbl tid).2
            tid (Hex key) key c).2 tid (Hex key)
            (getAndIncrValueFromFinalVersionValue (getVersionizedValuesOfTid tbl tid).2 tid
              (Hex key) key c).1) := by
  unfold getVersionizedValueForUpdate
  simp only [getVersionizedValuesOfTid_fst, h]

/-- The returned pointer is the one that the view holds afterwards. -/
theorem getVersionizedValueForUpdate_cached (tbl : StagingTable T) (tid : Option T)
    (key : Bytes) (c : Bool) :
    mapIndex (tidValuesOf (getVersionizedValueForUpdate tbl tid key c).2 tid) (Hex key)
      = (getVersionizedValueForUpdate tbl tid key c).1 := by
  cases h : mapIndex (tidValuesOf tbl tid) (Hex key) with
  | some e => rw [getVersionizedValueForUpdate_held tbl tid key c e h]; exact h
  | none =>
    rw [getVersionizedValueForUpdate_not_held tbl tid key c h]
    exact mapIndex_setTidValue_self _ _ _ _

/-- With creation permitted `getVersionizedValueForUpdate` never returns `nil`. -/
theorem getVersionizedValueForUpdate_create_isSome (tbl : StagingTable T) (tid : Option T)
    (key : Bytes) : ∃ e, (getVersionizedValueForUpdate tbl tid key true).1 = some e := by
  cases h : mapIndex (tidValuesOf tbl tid) (Hex key) with
  | some e => rw [getVersionizedValueForUpdate_held tbl tid key true e h]; exact ⟨e, rfl⟩
  | none =>
    rw [getVersionizedValueForUpdate_not_held tbl tid key true h]
    exact getAndIncr_create_isSome _ _ _ _

/-- The Final Store after `getVersionizedValueForUpdate` with a non-nil identifier. -/
theorem getVersionizedValueForUpdate_final_some (tbl : StagingTable T) (t : T) (key : Bytes)
    (c : Bool) :
    (getVersionizedValueForUpdate tbl (some t) key c).2.finalVersionizedValue
      = if mapIndex (tidValuesOf tbl (some t)) (Hex key) = none
            ∧ mapIndex tbl.finalVersionizedValue (Hex key) = none ∧ c = true
        then tbl.finalVersionizedValue.insert (Hex key)
          (some (NewDefaultVersionizedValueItem key))
        else tbl.finalVersionizedValue := by
  cases h : mapIndex (tidValuesOf tbl (some t)) (Hex key) with
  | some e =>
    rw [getVersionizedValueForUpdate_held tbl (some t) key c e h]
    simp
  | none =>
    rw [getVersionizedValueForUpdate_not_held tbl (some t) key c h, setTidValue_final_some]
    have hf := getVersionizedValuesOfTid_final tbl (some t)
    cases hfin : mapIndex tbl.finalVersionizedValue (Hex key) with
    | some f =>
      rw [getAndIncr_present _ _ _ _ _ f (by rw [hf]; exact hfin)]
      simp [hf]
    | none =>
      cases c with
      | true =>
        rw [getAndIncr_absent_create _ _ _ _ (by rw [hf]; exact hfin)]
        simp [hf]
      | false =>
        rw [getAndIncr_absent_read _ _ _ _ (by rw [hf]; exact hfin)]
        simp [hf]

/-- The views of the other identifiers after `getVersionizedValueForUpdate`. -/
theorem getVersionizedValueForUpdate_lookup_ne (tbl : StagingTable T) (t t1 : T) (key : Bytes)
    (c : Bool) (hne : t1 ≠ t) :
    (getVersionizedValueForUpdate tbl (some t) key c).2.allVersionizedValues.lookup t1
      = tbl.allVersionizedValues.lookup t1 := by
  cases h : mapIndex (tidValuesOf tbl (some t)) (Hex key) with
  | some e => rw [getVersionizedValueForUpdate_held tbl (some t) key c e h]
  | none =>
    rw [getVersionizedValueForUpdate_not_held tbl (some t) key c h,
      setTidValue_lookup_ne _ _ _ _ _ hne, getAndIncr_all,
      getVersionizedValuesOfTid_lookup_ne tbl t t1 hne]

/-- No view changes when `getVersionizedValueForUpdate` is called with the `nil` identifier. -/
theorem getVersionizedValueForUpdate_all_none (tbl : StagingTable T) (key : Bytes) (c : Bool) :
    (getVersionizedValueForUpdate tbl none key c).2.allVersionizedValues
      = tbl.allVersionizedValues := by
  cases h : mapIndex (tidValuesOf tbl none) (Hex key) with
  | some e => rw [getVersionizedValueForUpdate_held tbl none key c e h]
  | none =>
    rw [getVersionizedValueForUpdate_not_held tbl none key c h, setTidValue_all_none,
      getAndIncr_all]
    rfl

/-! ## The two loops of `MergeToFinal` -/

theorem checkVersion_nil_entries (finalValues : stagingValuesMap T) (d : List (Option T))
    (c : List (String × Option T)) : checkVersion finalValues [] d c = some (d, c) := rfl

/-- The first loop only ever extends the list of conflicting keys. -/
theorem checkVersion_conflicts_mono (finalValues : stagingValuesMap T)
    (l : List (Σ _ : String, Option (VersionizedValueItem T))) :
    ∀ (d : List (Option T)) (c : List (String × Option T)) (d1 : List (Option T))
      (c1 : List (String × Option T)),
      checkVersion finalValues l d c = some (d1, c1) → c.length ≤ c1.length := by
  induction l with
  | nil =>
    intro d c d1 c1 h
    simp only [checkVersion, Option.some.injEq, Prod.mk.injEq] at h
    rw [h.2]
  | cons x rest ih =>
    intro d c d1 c1 h
    obtain ⟨k, v⟩ := x
    simp only [checkVersion] at h
    split at h
    · exact ih _ _ _ _ h
    · split at h
      · exact absurd h (by simp)
      · split at h
        · exact ih _ _ _ _ h
        · split at h
          · have := ih _ _ _ _ h
            simp only [List.length_append, List.length_singleton] at this
            omega
          · exact ih _ _ _ _ h

/-- Without a conflicting entry the first loop records no conflict. -/
theorem checkVersion_conflicts_eq (finalValues : stagingValuesMap T)
    (l : List (Σ _ : String, Option (VersionizedValueItem T)))
    (hno : ∀ x ∈ l, ¬ Conflicting finalValues x.1 x.2) :
    ∀ (d : List (Option T)) (c : List (String × Option T)) (d1 : List (Option T))
      (c1 : List (String × Option T)),
      checkVersion finalValues l d c = some (d1, c1) → c1 = c := by
  induction l with
  | nil =>
    intro d c d1 c1 h
    simp only [checkVersion, Option.some.injEq, Prod.mk.injEq] at h
    exact h.2.symm
  | cons x rest ih =>
    intro d c d1 c1 h
    have ih1 := ih (fun y hy => hno y (List.mem_cons_of_mem _ hy))
    have hx := hno x (List.mem_cons_self _ _)
    obtain ⟨k, v⟩ := x
    simp only [checkVersion] at h
    split at h
    · exact ih1 _ _ _ _ h
    · rename_i f hf
      split at h
      · exact absurd h (by simp)
      · rename_i item
        split at h
        · exact ih1 _ _ _ _ h
        · rename_i hd
          split at h
          · rename_i hne
            exact absurd ⟨item, f, rfl, by simpa using hd, hf, hne⟩ hx
          · exact ih1 _ _ _ _ h

/-- With a conflicting entry the first loop, if it comes to its end, has recorded a conflict. -/
theorem checkVersion_conflicts_lt (finalValues : stagingValuesMap T)
    (l : List (Σ _ : String, Option (VersionizedValueItem T)))
    (hex : ∃ x ∈ l, Conflicting finalValues x.1 x.2) :
    ∀ (d : List (Option T)) (c : List (String × Option T)) (d1 : List (Option T))
      (c1 : List (String × Option T)),
      checkVersion finalValues l d c = some (d1, c1) → c.length < c1.length := by
  induction l with
  | nil => obtain ⟨x, hx, -⟩ := hex; simp at hx
  | cons x rest ih =>
    intro d c d1 c1 h
    obtain ⟨y, hy, hconf⟩ := hex
    rcases List.mem_cons.mp hy with hyx | hyr
    · subst hyx
      obtain ⟨k, v⟩ := y
      obtain ⟨e, f, hv, hd, hf, hne⟩ := hconf
      simp only at hv hf
      subst hv
      simp only [checkVersion, hf, hd] at h
      rw [if_neg (by simp), if_pos hne] at h
      have := checkVersion_conflicts_mono finalValues rest _ _ _ _ h
      simp only [List.length_append, List.length_singleton] at this
      omega
    · have ih1 := ih ⟨y, hyr, hconf⟩
      obtain ⟨k, v⟩ := x
      simp only [checkVersion] at h
      split at h
      · exact ih1 _ _ _ _ h
      · split at h
        · exact absurd h (by simp)
        · split at h
          · exact ih1 _ _ _ _ h
          · split at h
            · have := ih1 _ _ _ _ h
              simp only [List.length_append, List.length_singleton] at this
              omega
            · exact ih1 _ _ _ _ h

/-- The first loop comes to its end when no slot of the view holds `nil` for a key that the
Final Store has. -/
theorem checkVersion_isSome (finalValues : stagingValuesMap T)
    (l : List (Σ _ : String, Option (VersionizedValueItem T)))
    (hsafe : ∀ x ∈ l, x.2 = none → mapIndex finalValues x.1 = none) :
    ∀ (d : List (Option T)) (c : List (String × Option T)),
      ∃ d1 c1, checkVersion finalValues l d c = some (d1, c1) := by
  induction l with
  | nil => intro d c; exact ⟨d, c, rfl⟩
  | cons x rest ih =>
    intro d c
    have ih1 := ih (fun y hy => hsafe y (List.mem_cons_of_mem _ hy))
    have hx := hsafe x (List.mem_cons_self _ _)
    obtain ⟨k, v⟩ := x
    simp only [checkVersion]
    split
    · exact ih1 _ _
    · rename_i f hf
      split
      · rw [hx rfl] at hf; exact absurd hf (by simp)
      · split
        · exact ih1 _ _
        · split
          · exact ih1 _ _
          · exact ih1 _ _

theorem mergeValuesDone_nil (finalValues : stagingValuesMap T) :
    mergeValuesDone [] finalValues = some finalValues := rfl

theorem mergeValuesDone_cons_none (k : String)
    (rest : List (Σ _ : String, Option (VersionizedValueItem T)))
    (finalValues : stagingValuesMap T) :
    mergeValuesDone (⟨k, none⟩ :: rest) finalValues = none := rfl

theorem mergeValuesDone_cons_some (k : String) (item : VersionizedValueItem T)
    (rest : List (Σ _ : String, Option (VersionizedValueItem T)))
    (finalValues : stagingValuesMap T) :
    mergeValuesDone (⟨k, some item⟩ :: rest) finalValues
      = if item.dirty = false then mergeValuesDone rest finalValues
        else mergeValuesDone rest (finalValues.insert k (some item.CloneForFinal)) := by
  unfold mergeValuesDone
  simp only [mergeValues]
  split <;> rfl

/-- The second loop comes to its end exactly when no slot of the view holds `nil`. -/
theorem mergeValues_isSome (l : List (Σ _ : String, Option (VersionizedValueItem T)))
    (hsafe : ∀ x ∈ l, x.2 ≠ none) :
    ∀ finalValues : stagingValuesMap T, ∃ finalValues1, mergeValuesDone l finalValues
      = some finalValues1 := by
  induction l with
  | nil => intro fv; exact ⟨fv, rfl⟩
  | cons x rest ih =>
    intro fv
    have ih1 := ih (fun y hy => hsafe y (List.mem_cons_of_mem _ hy))
    have hx := hsafe x (List.mem_cons_self _ _)
    obtain ⟨k, v⟩ := x
    cases v with
    | none => exact absurd rfl hx
    | some item =>
      simp only [mergeValuesDone_nil, mergeValuesDone_cons_none, mergeValuesDone_cons_some]
      split
      · exact ih1 _
      · exact ih1 _

theorem mergeValues_no_nil (l : List (Σ _ : String, Option (VersionizedValueItem T))) :
    ∀ finalValues finalValues1 : stagingValuesMap T,
      mergeValuesDone l finalValues = some finalValues1 → ∀ x ∈ l, x.2 ≠ none := by
  induction l with
  | nil => intro _ _ _ x hx; simp at hx
  | cons x rest ih =>
    intro fv fv1 h y hy
    obtain ⟨k, v⟩ := x
    cases v with
    | none => simp [mergeValuesDone_nil, mergeValuesDone_cons_none, mergeValuesDone_cons_some] at h
    | some item =>
      rcases List.mem_cons.mp hy with hyx | hyr
      · subst hyx; simp
      · simp only [mergeValuesDone_nil, mergeValuesDone_cons_none, mergeValuesDone_cons_some] at h
        split at h
        · exact ih _ _ h y hyr
        · exact ih _ _ h y hyr

/-- The second loop leaves alone every key that the view does not hold with write intent. -/
theorem mergeValues_lookup_of_not_dirty
    (l : List (Σ _ : String, Option (VersionizedValueItem T))) (k : String)
    (hk : ∀ e, (⟨k, some e⟩ : Σ _ : String, Option (VersionizedValueItem T)) ∈ l
      → e.dirty = false) :
    ∀ finalValues finalValues1 : stagingValuesMap T,
      mergeValuesDone l finalValues = some finalValues1 →
      finalValues1.lookup k = finalValues.lookup k := by
  induction l with
  | nil =>
    intro fv fv1 h
    simp only [mergeValuesDone_nil, mergeValuesDone_cons_none, mergeValuesDone_cons_some, Option.some.injEq] at h
    rw [h]
  | cons x rest ih =>
    intro fv fv1 h
    have ih1 := ih (fun e he => hk e (List.mem_cons_of_mem _ he))
    obtain ⟨k0, v⟩ := x
    cases v with
    | none => simp [mergeValuesDone_nil, mergeValuesDone_cons_none, mergeValuesDone_cons_some] at h
    | some item =>
      simp only [mergeValuesDone_nil, mergeValuesDone_cons_none, mergeValuesDone_cons_some] at h
      split at h
      · exact ih1 _ _ h
      · rename_i hd
        rw [ih1 _ _ h]
        have hne : k ≠ k0 := by
          intro hkk
          subst hkk
          exact hd (hk item (List.mem_cons_self _ _))
        exact AList.lookup_insert_ne hne

/-- The second loop installs the commit-ready clone of every written entry. -/
theorem mergeValues_lookup_of_dirty
    (l : List (Σ _ : String, Option (VersionizedValueItem T))) (hnd : l.NodupKeys)
    (k : String) (e : VersionizedValueItem T)
    (hmem : (⟨k, some e⟩ : Σ _ : String, Option (VersionizedValueItem T)) ∈ l)
    (hd : e.dirty = true) :
    ∀ finalValues finalValues1 : stagingValuesMap T,
      mergeValuesDone l finalValues = some finalValues1 →
      finalValues1.lookup k = some (some e.CloneForFinal) := by
  induction l with
  | nil => simp at hmem
  | cons x rest ih =>
    intro fv fv1 h
    obtain ⟨k0, v⟩ := x
    rw [List.nodupKeys_cons] at hnd
    cases v with
    | none => simp [mergeValuesDone_nil, mergeValuesDone_cons_none, mergeValuesDone_cons_some] at h
    | some item =>
      simp only [mergeValuesDone_nil, mergeValuesDone_cons_none, mergeValuesDone_cons_some] at h
      rcases List.mem_cons.mp hmem with hx | hr
      · -- the entry at hand: no later entry has its key
        simp only [Sigma.mk.inj_iff, heq_eq_eq, Option.some.injEq] at hx
        obtain ⟨hk, he⟩ := hx
        subst hk; subst he
        simp only [hd, Bool.true_eq_false, ↓reduceIte] at h
        have hrest : ∀ e1, (⟨k, some e1⟩ : Σ _ : String, Option (VersionizedValueItem T)) ∈ rest
            → e1.dirty = false := by
          intro e1 he1
          exact absurd (List.mem_keys_of_mem he1) hnd.1
        rw [mergeValues_lookup_of_not_dirty rest k hrest _ _ h]
        exact AList.lookup_insert _
      · split at h
        · exact ih hnd.2 hr _ _ h
        · exact ih hnd.2 hr _ _ h

/-! ## `MergeToFinal` -/

/-- A `MergeToFinal` that returns the conflict error has changed nothing and returns a `nil`
slice. -/
theorem MergeToFinal_conflict_unchanged (tbl tbl1 : StagingTable T) (tid : Option T)
    (deps : Option (List (Option T)))
    (h : MergeToFinal tbl tid
      = some ((deps, some MergeError.ErrStagingTableKeyConfliction), tbl1)) :
    tbl1 = tbl ∧ deps = none := by
  unfold MergeToFinal at h
  simp only at h
  split at h
  · exact absurd h (by simp)
  · rename_i d c hc
    split at h
    · rename_i hlen
      simp only [Option.some.injEq, Prod.mk.injEq] at h
      obtain ⟨⟨hd, -⟩, ht⟩ := h
      -- a conflict was recorded, so the view of `tid` existed before the call
      have hex : (getVersionizedValuesOfTid tbl tid).2 = tbl := by
        cases tid with
        | none => rfl
        | some t =>
          simp only [getVersionizedValuesOfTid] at hc ⊢
          cases h1 : tbl.allVersionizedValues.lookup t with
          | some m => rfl
          | none =>
            rw [h1] at hc
            simp only [AList.empty_entries, checkVersion, Option.some.injEq,
              Prod.mk.injEq] at hc
            rw [← hc.2] at hlen
            simp at hlen
      rw [← ht, hex]
      exact ⟨rfl, hd.symm⟩
    · split at h
      · exact absurd h (by simp)
      · simp at h

/-- What a successful `MergeToFinal` leaves behind: the views as `getVersionizedValuesOfTid`
left them, and the Final Store that the second loop computed from the view. -/
theorem MergeToFinal_success (tbl tbl1 : StagingTable T) (tid : Option T)
    (deps : Option (List (Option T)))
    (h : MergeToFinal tbl tid = some ((deps, none), tbl1)) :
    mergeValuesDone (tidValuesOf tbl tid).entries tbl.finalVersionizedValue
        = some tbl1.finalVersionizedValue
      ∧ tbl1.allVersionizedValues
        = (getVersionizedValuesOfTid tbl tid).2.allVersionizedValues
      ∧ ∃ d, deps = some d := by
  unfold MergeToFinal at h
  simp only at h
  split at h
  · exact absurd h (by simp)
  · split at h
    · simp at h
    · split at h
      · exact absurd h (by simp)
      · rename_i fv1 hm
        simp only [Option.some.injEq, Prod.mk.injEq] at h
        obtain ⟨⟨hd, -⟩, ht⟩ := h
        rw [getVersionizedValuesOfTid_fst, getVersionizedValuesOfTid_final] at hm
        subst ht
        exact ⟨hm, rfl, _, hd.symm⟩

/-- The method `MergeToFinal` on a view without `nil` slots: it never panics, and it returns the
conflict error exactly when the view holds a written entry whose baseline differs from the assigned
version of the Final Store entry of its key. -/
theorem MergeToFinal_of_no_nil (tbl : StagingTable T) (tid : Option T)
    (hsafe : ∀ x ∈ (tidValuesOf tbl tid).entries, x.2 ≠ none) :
    ((∃ x ∈ (tidValuesOf tbl tid).entries, Conflicting tbl.finalVersionizedValue x.1 x.2)
      → MergeToFinal tbl tid
        = some ((none, some MergeError.ErrStagingTableKeyConfliction), tbl))
    ∧ ((¬ ∃ x ∈ (tidValuesOf tbl tid).entries, Conflicting tbl.finalVersionizedValue x.1 x.2)
      → ∃ d tbl1, MergeToFinal tbl tid = some ((some d, none), tbl1)) := by
  obtain ⟨d1, c1, hc⟩ := checkVersion_isSome tbl.finalVersionizedValue
    (tidValuesOf tbl tid).entries (fun x hx hn => absurd hn (hsafe x hx)) [] []
  obtain ⟨fv1, hm⟩ := mergeValues_isSome (tidValuesOf tbl tid).entries hsafe
    tbl.finalVersionizedValue
  constructor
  · intro hex
    have hlt := checkVersion_conflicts_lt _ _ hex _ _ _ _ hc
    have h0 : MergeToFinal tbl tid
        = some ((none, some MergeError.ErrStagingTableKeyConfliction),
            (getVersionizedValuesOfTid tbl tid).2) := by
      unfold MergeToFinal
      simp only [getVersionizedValuesOfTid_fst, getVersionizedValuesOfTid_final, hc]
      rw [if_pos (by simpa using hlt)]
    rw [h0, (MergeToFinal_conflict_unchanged tbl _ tid none h0).1]
  · intro hno
    have hno1 : ∀ x ∈ (tidValuesOf tbl tid).entries,
        ¬ Conflicting tbl.finalVersionizedValue x.1 x.2 := fun x hx hcx => hno ⟨x, hx, hcx⟩
    have heq := checkVersion_conflicts_eq _ _ hno1 _ _ _ _ hc
    subst heq
    refine ⟨d1, { (getVersionizedValuesOfTid tbl tid).2 with finalVersionizedValue := fv1 }, ?_⟩
    unfold MergeToFinal
    simp only [getVersionizedValuesOfTid_fst, getVersionizedValuesOfTid_final, hc, hm]
    simp

/-! ## C1: atomic abort -/

/-- C1. If `MergeToFinal tid` returns the conflict error, the table after the call is the table
before it (the Final Store and every Transaction View are untouched, no key is installed) and
the returned slice of dependent identifiers is `nil`. -/
theorem MergeToFinal_conflict_atomic (tbl tbl1 : StagingTable T) (tid : Option T)
    (deps : Option (List (Option T)))
    (h : MergeToFinal tbl tid
      = some ((deps, some MergeError.ErrStagingTableKeyConfliction), tbl1)) :
    tbl1.finalVersionizedValue = tbl.finalVersionizedValue
      ∧ tbl1.allVersionizedValues = tbl.allVersionizedValues
      ∧ deps = none := by
  obtain ⟨h1, h2⟩ := MergeToFinal_conflict_unchanged tbl tbl1 tid deps h
  subst h1
  exact ⟨rfl, rfl, h2⟩

/-- C1 at a concrete table: `t2` wrote `K` from a baseline that `t1` has meanwhile replaced. -/
theorem MergeToFinal_conflict_atomic_witness :
    MergeToFinal conflictTable (some 2)
        = some ((none, some MergeError.ErrStagingTableKeyConfliction), conflictTable)
      ∧ conflictTable.finalVersionizedValue = conflictTable.finalVersionizedValue
      ∧ conflictTable.allVersionizedValues = conflictTable.allVersionizedValues
      ∧ (none : Option (List (Option Nat))) = none :=
  ⟨rfl, MergeToFinal_conflict_atomic conflictTable conflictTable (some 2) none rfl⟩

/-! ## C2: conflict if and only if a written baseline diverged -/

/-- C2 (the code departs from the claim). After `Get` of a key that the Final Store does not
have, the view holds a `nil` slot for the key and nothing else, so it has no written entry at
all; `MergeToFinal` then neither succeeds nor returns the conflict error: its second loop reads
`dirty` through the `nil` pointer.  And in `staleReadTable`, where the view of transaction 1
holds a written `K` whose baseline 0 differs from the assigned version 1 of the Final Store,
the `nil` slot of `L` makes the first loop panic instead of reporting the conflict. -/
theorem MergeToFinal_panics_on_nil_slot :
    (tidValuesOf absentReadTable (some 1)).entries = [⟨Hex keyK, none⟩]
      ∧ MergeToFinal absentReadTable (some 1) = none
      ∧ (mapIndex (tidValuesOf staleReadTable (some 1)) (Hex keyK)).map
          (fun e => (e.dirty, e.old)) = some (true, 0)
      ∧ (mapIndex staleReadTable.finalVersionizedValue (Hex keyK)).map
          (fun f => f.new) = some 1
      ∧ MergeToFinal staleReadTable (some 1) = none :=
  ⟨rfl, rfl, rfl, rfl, rfl⟩

/-! ## C3: install on success -/

/-- C3 (as stated, refuted for the `nil` identifier). In `directWriteTable` the Final Store
entry of `K` is written (`dirty`) with baseline and assigned version 0.  `MergeToFinal nil`
succeeds, and the entry that the `nil` identifier's map (the Final Store itself) holds for `K`
is not what it was: its write intent went from true to false.  No Transaction View of
`allVersionizedValues` held `K` with write intent under the `nil` identifier either. -/
theorem MergeToFinal_nil_rewrites_own_entries :
    mapIndex (tidValuesOf directWriteTable none) (Hex keyK)
        = some { tid := none, key := keyK, val := some [98], old := 0, new := 0,
                 dirty := true, deleted := false }
      ∧ (MergeToFinal directWriteTable none).map
          (fun r => (r.1, mapIndex (tidValuesOf r.2 none) (Hex keyK)))
        = some ((some [none], none),
            some { tid := none, key := keyK, val := some [98], old := 0, new := 0,
                   dirty := false, deleted := false }) :=
  ⟨rfl, rfl⟩

/-- C3 (amended: non-nil identifier). When `MergeToFinal` succeeds for a non-nil `t`: for every
key that the view of `t` holds with write intent, the Final Store afterwards holds an entry
with the same key, value, owner, baseline, assigned version and deletion flag and with write
intent false; every key that the view does not hold with write intent has the Final Store slot
it had; and the view of `t` is what it was. -/
theorem MergeToFinal_installs_written_entries (tbl tbl1 : StagingTable T) (t : T)
    (deps : Option (List (Option T)))
    (h : MergeToFinal tbl (some t) = some ((deps, none), tbl1)) :
    (∀ k e, (tidValuesOf tbl (some t)).lookup k = some (some e) → e.dirty = true →
        ∃ f, tbl1.finalVersionizedValue.lookup k = some (some f)
          ∧ f.key = e.key ∧ f.val = e.val ∧ f.tid = e.tid ∧ f.old = e.old ∧ f.new = e.new
          ∧ f.deleted = e.deleted ∧ f.dirty = false)
      ∧ (∀ k, (∀ e, (tidValuesOf tbl (some t)).lookup k = some (some e) → e.dirty = false) →
          tbl1.finalVersionizedValue.lookup k = tbl.finalVersionizedValue.lookup k)
      ∧ tidValuesOf tbl1 (some t) = tidValuesOf tbl (some t) := by
  obtain ⟨hm, hall, -⟩ := MergeToFinal_success tbl tbl1 (some t) deps h
  refine ⟨?_, ?_, ?_⟩
  · intro k e hk hd
    have hmem : (⟨k, some e⟩ : Σ _ : String, Option (VersionizedValueItem T))
        ∈ (tidValuesOf tbl (some t)).entries := AList.mem_lookup_iff.mp hk
    refine ⟨e.CloneForFinal, ?_, rfl, rfl, rfl, rfl, rfl, rfl, rfl⟩
    exact mergeValues_lookup_of_dirty _ (tidValuesOf tbl (some t)).nodupKeys k e hmem hd _ _ hm
  · intro k hk
    refine mergeValues_lookup_of_not_dirty _ k ?_ _ _ hm
    intro e he
    exact hk e (AList.mem_lookup_iff.mpr he)
  · have := getVersionizedValuesOfTid_tidValuesOf tbl (some t) (some t)
    simp only [tidValuesOf] at this ⊢
    rw [hall, this]

/-- C3 at a concrete table: the merge of a transaction that wrote `K`. -/
theorem MergeToFinal_installs_written_entries_witness :
    MergeToFinal singleWriteTable (some 1)
        = some ((some [none], none),
            tableAfter [Op.Put (some 1) keyK (some [97]) true, Op.MergeToFinal (some 1)])
      ∧ ((∀ k e, (tidValuesOf singleWriteTable (some 1)).lookup k = some (some e) →
            e.dirty = true →
            ∃ f, (tableAfter [Op.Put (some 1) keyK (some [97]) true,
                Op.MergeToFinal (some 1)]).finalVersionizedValue.lookup k = some (some f)
              ∧ f.key = e.key ∧ f.val = e.val ∧ f.tid = e.tid ∧ f.old = e.old ∧ f.new = e.new
              ∧ f.deleted = e.deleted ∧ f.dirty = false)
        ∧ (∀ k, (∀ e, (tidValuesOf singleWriteTable (some 1)).lookup k = some (some e) →
              e.dirty = false) →
            (tableAfter [Op.Put (some 1) keyK (some [97]) true,
                Op.MergeToFinal (some 1)]).finalVersionizedValue.lookup k
              = singleWriteTable.finalVersionizedValue.lookup k)
        ∧ tidValuesOf (tableAfter [Op.Put (some 1) keyK (some [97]) true,
              Op.MergeToFinal (some 1)]) (some 1)
            = tidValuesOf singleWriteTable (some 1)) :=
  ⟨rfl, MergeToFinal_installs_written_entries singleWriteTable _ 1 (some [none]) rfl⟩

/-! ## C4: first committer wins -/

/-- C4 (the code departs from the claim). `raceTable` is reached from a new table by
`Get(1, L)`, `Put(1, K, "a", true)`, `Put(2, K, "b", true)`.  Transactions 1 and 2 both hold
`K` with write intent and baseline 0, the assigned version of the Final Store entry of `K` is
0, and transaction 1 holds no other written key; yet `MergeToFinal 1` does not succeed: the
`nil` slot that `Get(1, L)` left in the view makes the second loop panic. -/
theorem MergeToFinal_first_committer_panics :
    (mapIndex (tidValuesOf raceTable (some 1)) (Hex keyK)).map
        (fun e => (e.dirty, e.old, e.new)) = some (true, 0, 1)
      ∧ (mapIndex (tidValuesOf raceTable (some 2)) (Hex keyK)).map
        (fun e => (e.dirty, e.old, e.new)) = some (true, 0, 1)
      ∧ (mapIndex raceTable.finalVersionizedValue (Hex keyK)).map (fun f => f.new) = some 0
      ∧ (tidValuesOf raceTable (some 1)).keys = [Hex keyK, Hex keyL]
      ∧ mapIndex (tidValuesOf raceTable (some 1)) (Hex keyL) = none
      ∧ MergeToFinal raceTable (some 1) = none :=
  ⟨rfl, rfl, rfl, rfl, rfl, rfl⟩

/-! ## `Put` and `Del` -/

/-- The method `Put` never panics: it writes `val` and `dirty` into the entry that
`getVersionizedValueForUpdate` returned. -/
theorem Put_eq (tbl : StagingTable T) (tid : Option T) (key : Bytes) (val : Option Bytes)
    (dirty : Bool) :
    ∃ base, (getVersionizedValueForUpdate tbl tid key true).1 = some base
      ∧ Put tbl tid key val dirty
        = some ({ base with val := val, dirty := dirty },
            setTidValue (getVersionizedValueForUpdate tbl tid key true).2 tid (Hex key)
              (some { base with val := val, dirty := dirty })) := by
  obtain ⟨base, hb⟩ := getVersionizedValueForUpdate_create_isSome tbl tid key
  refine ⟨base, hb, ?_⟩
  unfold Put
  simp only [hb]

/-- The method `Del` never panics: it sets `deleted` and `dirty` in the entry that
`getVersionizedValueForUpdate` returned. -/
theorem Del_eq (tbl : StagingTable T) (tid : Option T) (key : Bytes) :
    ∃ base, (getVersionizedValueForUpdate tbl tid key true).1 = some base
      ∧ Del tbl tid key
        = some ({ base with deleted := true, dirty := true },
            setTidValue (getVersionizedValueForUpdate tbl tid key true).2 tid (Hex key)
              (some { base with deleted := true, dirty := true })) := by
  obtain ⟨base, hb⟩ := getVersionizedValueForUpdate_create_isSome tbl tid key
  refine ⟨base, hb, ?_⟩
  unfold Del
  simp only [hb]

/-- The entry that `getVersionizedValueForUpdate` derives, with creation permitted, for a key
that the view of a non-nil identifier does not hold, and the Final Store it leaves. -/
theorem getVersionizedValueForUpdate_derive (tbl : StagingTable T) (t : T) (key : Bytes)
    (hview : mapIndex (tidValuesOf tbl (some t)) (Hex key) = none) :
    (∀ f, mapIndex tbl.finalVersionizedValue (Hex key) = some f →
        (getVersionizedValueForUpdate tbl (some t) key true).1
          = some (IncrVersionizedValueItem (some t) f))
      ∧ (mapIndex tbl.finalVersionizedValue (Hex key) = none →
        (getVersionizedValueForUpdate tbl (some t) key true).1
            = some (IncrVersionizedValueItem (some t) (NewDefaultVersionizedValueItem key))
          ∧ (getVersionizedValueForUpdate tbl (some t) key true).2.finalVersionizedValue
            = tbl.finalVersionizedValue.insert (Hex key)
                (some (NewDefaultVersionizedValueItem key))) := by
  have hf := getVersionizedValuesOfTid_final tbl (some t)
  constructor
  · intro f hfin
    rw [getVersionizedValueForUpdate_not_held tbl (some t) key true hview,
      getAndIncr_present _ _ _ _ _ f (by rw [hf]; exact hfin)]
  · intro hfin
    rw [getVersionizedValueForUpdate_final_some, if_pos ⟨hview, hfin, rfl⟩,
      getVersionizedValueForUpdate_not_held tbl (some t) key true hview,
      getAndIncr_absent_create _ _ _ _ (by rw [hf]; exact hfin)]
    exact ⟨rfl, rfl⟩

/-! ## C7: the materialisation rule -/

/-- C7. Let the view of the non-nil `t` hold no entry for `key`.  (a) If the Final Store holds
`f` for the key, `Get` returns, and caches in the view of `t`, the entry with owner `t`, the key
and value of `f`, baseline `f.new`, assigned version `f.new + 1` and both flags false, and the
Final Store stays as it is.  (b) `Put` and `Del` return an entry with the same baseline and
assigned version; when the Final Store holds no entry for the key, it holds afterwards the
entry with versions 0/0, no value, no owner and both flags false, and the returned entry has
baseline 0 and assigned version 1. -/
theorem materialization_rule (tbl : StagingTable T) (t : T) (key : Bytes)
    (hview : mapIndex (tidValuesOf tbl (some t)) (Hex key) = none) :
    (∀ f, mapIndex tbl.finalVersionizedValue (Hex key) = some f →
        (Get tbl (some t) key).1
            = some { tid := some t, key := f.key, val := f.val, old := f.new, new := f.new + 1,
                     dirty := false, deleted := false }
        ∧ mapIndex (tidValuesOf (Get tbl (some t) key).2 (some t)) (Hex key)
            = some { tid := some t, key := f.key, val := f.val, old := f.new, new := f.new + 1,
                     dirty := false, deleted := false }
        ∧ (Get tbl (some t) key).2.finalVersionizedValue = tbl.finalVersionizedValue)
      ∧ (∀ val dirty, ∃ e tbl1, Put tbl (some t) key val dirty = some (e, tbl1)
          ∧ (∀ f, mapIndex tbl.finalVersionizedValue (Hex key) = some f →
              e.old = f.new ∧ e.new = f.new + 1)
          ∧ (mapIndex tbl.finalVersionizedValue (Hex key) = none →
              mapIndex tbl1.finalVersionizedValue (Hex key)
                  = some { tid := none, key := key, val := none, old := 0, new := 0,
                           dirty := false, deleted := false }
                ∧ e.old = 0 ∧ e.new = 1))
      ∧ (∃ e tbl1, Del tbl (some t) key = some (e, tbl1)
          ∧ (∀ f, mapIndex tbl.finalVersionizedValue (Hex key) = some f →
              e.old = f.new ∧ e.new = f.new + 1)
          ∧ (mapIndex tbl.finalVersionizedValue (Hex key) = none →
              mapIndex tbl1.finalVersionizedValue (Hex key)
                  = some { tid := none, key := key, val := none, old := 0, new := 0,
                           dirty := false, deleted := false }
                ∧ e.old = 0 ∧ e.new = 1)) := by
  obtain ⟨hpres, habs⟩ := getVersionizedValueForUpdate_derive tbl t key hview
  refine ⟨?_, ?_, ?_⟩
  · intro f hfin
    have hget : (Get tbl (some t) key).1 = some (IncrVersionizedValueItem (some t) f) := by
      unfold Get
      rw [getVersionizedValueForUpdate_not_held tbl (some t) key false hview,
        getAndIncr_present _ _ _ _ _ f
          (by rw [getVersionizedValuesOfTid_final]; exact hfin)]
    refine ⟨hget, ?_, ?_⟩
    · have := getVersionizedValueForUpdate_cached tbl (some t) key false
      unfold Get at hget ⊢
      rw [this, hget]
      rfl
    · unfold Get
      rw [getVersionizedValueForUpdate_final_some, if_neg]
      rintro ⟨-, -, hc⟩
      exact absurd hc (by simp)
  · intro val dirty
    obtain ⟨base, hb, hput⟩ := Put_eq tbl (some t) key val dirty
    refine ⟨_, _, hput, ?_, ?_⟩
    · intro f hfin
      have := hpres f hfin
      rw [hb, Option.some.injEq] at this
      subst this
      exact ⟨rfl, rfl⟩
    · intro hfin
      obtain ⟨h1, h2⟩ := habs hfin
      rw [hb, Option.some.injEq] at h1
      subst h1
      rw [setTidValue_final_some, h2, mapIndex_insert_self]
      exact ⟨rfl, rfl, rfl⟩
  · obtain ⟨base, hb, hdel⟩ := Del_eq tbl (some t) key
    refine ⟨_, _, hdel, ?_, ?_⟩
    · intro f hfin
      have := hpres f hfin
      rw [hb, Option.some.injEq] at this
      subst this
      exact ⟨rfl, rfl⟩
    · intro hfin
      obtain ⟨h1, h2⟩ := habs hfin
      rw [hb, Option.some.injEq] at h1
      subst h1
      rw [setTidValue_final_some, h2, mapIndex_insert_self]
      exact ⟨rfl, rfl, rfl⟩

/-- C7 at a concrete table: transaction 3 reads `K` after transaction 1 has committed revision 1
of it. -/
theorem materialization_rule_witness :
    mapIndex (tidValuesOf conflictTable (some 3)) (Hex keyK) = none
      ∧ mapIndex conflictTable.finalVersionizedValue (Hex keyK)
          = some { tid := some 1, key := keyK, val := some [97], old := 0, new := 1,
                   dirty := false, deleted := false }
      ∧ (Get conflictTable (some 3) keyK).1
          = some { tid := some 3, key := keyK, val := some [97], old := 1, new := 2,
                   dirty := false, deleted := false } :=
  ⟨rfl, rfl, ((materialization_rule conflictTable 3 keyK (by rfl)).1 _ (by rfl)).1⟩

/-! ## `Get` of a key that the Final Store does not have -/

/-- When neither the Final Store nor the map of `tid` holds an entry for the key, `Get` returns
absence, no key of the Final Store gains an entry or has its entry changed, and for a non-nil
`tid` the Final Store map is the very map it was. -/
theorem Get_absent_of_unheld (tbl : StagingTable T) (tid : Option T) (key : Bytes)
    (hfin : mapIndex tbl.finalVersionizedValue (Hex key) = none)
    (hview : mapIndex (tidValuesOf tbl tid) (Hex key) = none) :
    (Get tbl tid key).1 = none
      ∧ (∀ k, mapIndex (Get tbl tid key).2.finalVersionizedValue k
          = mapIndex tbl.finalVersionizedValue k)
      ∧ (tid ≠ none →
          (Get tbl tid key).2.finalVersionizedValue = tbl.finalVersionizedValue) := by
  have hf := getVersionizedValuesOfTid_final tbl tid
  have hget : Get tbl tid key
      = (none, setTidValue (getVersionizedValuesOfTid tbl tid).2 tid (Hex key) none) := by
    unfold Get
    rw [getVersionizedValueForUpdate_not_held tbl tid key false hview,
      getAndIncr_absent_read _ _ _ _ (by rw [hf]; exact hfin)]
  rw [hget]
  refine ⟨rfl, ?_, ?_⟩
  · intro k
    cases tid with
    | some t => rw [setTidValue_final_some, hf]
    | none =>
      show mapIndex (tbl.finalVersionizedValue.insert (Hex key) none) k = _
      by_cases hk : k = Hex key
      · subst hk; rw [mapIndex_insert_self, hfin]
      · rw [mapIndex_insert_ne _ _ hk]
  · intro hne
    cases tid with
    | some t => rw [setTidValue_final_some, hf]
    | none => exact absurd rfl hne

/-! ## C9: idempotent materialisation -/

/-- The entry that a staged access returns is the one that the view holds afterwards. -/
theorem access_cached (tbl tbl1 : StagingTable T) (tid : Option T) (key : Bytes) (a : Access)
    (e : VersionizedValueItem T) (h : access tbl tid key a = some (some e, tbl1)) :
    mapIndex (tidValuesOf tbl1 tid) (Hex key) = some e := by
  cases a with
  | Get =>
    simp only [access, Get, Option.some.injEq] at h
    have := getVersionizedValueForUpdate_cached tbl tid key false
    rw [h] at this
    exact this
  | Put val dirty =>
    obtain ⟨base, -, hput⟩ := Put_eq tbl tid key val dirty
    simp only [access, hput, Option.map_some', Option.some.injEq, Prod.mk.injEq] at h
    obtain ⟨he, ht⟩ := h
    rw [← ht, ← he]
    exact mapIndex_setTidValue_self _ _ _ _
  | Del =>
    obtain ⟨base, -, hdel⟩ := Del_eq tbl tid key
    simp only [access, hdel, Option.map_some', Option.some.injEq, Prod.mk.injEq] at h
    obtain ⟨he, ht⟩ := h
    rw [← ht, ← he]
    exact mapIndex_setTidValue_self _ _ _ _

/-- A key that a map was just written at occurs exactly once among its keys. -/
theorem keys_count_setTidValue (tbl : StagingTable T) (tid : Option T) (k : String)
    (v : Option (VersionizedValueItem T)) :
    (tidValuesOf (setTidValue tbl tid k v) tid).keys.count k = 1 := by
  rw [tidValuesOf_setTidValue_self]
  apply List.count_eq_one_of_mem (AList.keys_nodup _)
  rw [← AList.mem_keys, AList.mem_insert]
  exact Or.inl rfl

/-- A key that a map holds an entry for occurs exactly once among its keys. -/
theorem keys_count_of_mapIndex (m : stagingValuesMap T) (k : String)
    (e : VersionizedValueItem T) (h : mapIndex m k = some e) : m.keys.count k = 1 := by
  apply List.count_eq_one_of_mem (AList.keys_nodup _)
  rw [← AList.mem_keys, ← AList.lookup_isSome, (mapIndex_eq_some_iff m k e).mp h]
  rfl

/-- C9. If a `Get`, `Put` or `Del` on `(t, key)`, `t` non-nil, returned the entry `e`, then a
following `Get` returns `e` itself and leaves the whole table (the view of `t` and the Final
Store) as it is, a following `Put` or `Del` returns an entry with the baseline and assigned
version of `e`, and the view holds exactly one entry for the key before and after. -/
theorem idempotent_materialization (tbl tbl1 : StagingTable T) (t : T) (key : Bytes)
    (a : Access) (e : VersionizedValueItem T)
    (h : access tbl (some t) key a = some (some e, tbl1)) :
    Get tbl1 (some t) key = (some e, tbl1)
      ∧ (tidValuesOf tbl1 (some t)).keys.count (Hex key) = 1
      ∧ (∀ val dirty, ∃ e2 tbl2, Put tbl1 (some t) key val dirty = some (e2, tbl2)
          ∧ e2.old = e.old ∧ e2.new = e.new
          ∧ (tidValuesOf tbl2 (some t)).keys.count (Hex key) = 1)
      ∧ (∃ e2 tbl2, Del tbl1 (some t) key = some (e2, tbl2)
          ∧ e2.old = e.old ∧ e2.new = e.new
          ∧ (tidValuesOf tbl2 (some t)).keys.count (Hex key) = 1) := by
  have hc := access_cached tbl tbl1 (some t) key a e h
  refine ⟨getVersionizedValueForUpdate_held tbl1 (some t) key false e hc,
    keys_count_of_mapIndex _ _ e hc, ?_, ?_⟩
  · intro val dirty
    obtain ⟨base, hb, hput⟩ := Put_eq tbl1 (some t) key val dirty
    rw [getVersionizedValueForUpdate_held tbl1 (some t) key true e hc] at hb hput
    simp only [Option.some.injEq] at hb
    subst hb
    exact ⟨_, _, hput, rfl, rfl, keys_count_setTidValue _ _ _ _⟩
  · obtain ⟨base, hb, hdel⟩ := Del_eq tbl1 (some t) key
    rw [getVersionizedValueForUpdate_held tbl1 (some t) key true e hc] at hb hdel
    simp only [Option.some.injEq] at hb
    subst hb
    exact ⟨_, _, hdel, rfl, rfl, keys_count_setTidValue _ _ _ _⟩

/-- C9 at a concrete table: a `Get` right after the `Put` of `singleWriteTable`. -/
theorem idempotent_materialization_witness :
    access (NewStagingTable : StagingTable Nat) (some 1) keyK (Access.Put (some [97]) true)
        = some (some { tid := some 1, key := keyK, val := some [97], old := 0, new := 1,
                       dirty := true, deleted := false }, singleWriteTable)
      ∧ Get singleWriteTable (some 1) keyK
        = (some { tid := some 1, key := keyK, val := some [97], old := 0, new := 1,
                  dirty := true, deleted := false }, singleWriteTable) :=
  ⟨rfl, (idempotent_materialization NewStagingTable singleWriteTable 1 keyK
    (Access.Put (some [97]) true) _ (by rfl)).1⟩

/-! ## C10: write marking -/

/-- With creation permitted `getVersionizedValueForUpdate` returns the entry as it was before
the call, or as materialised. -/
theorem getVersionizedValueForUpdate_eq_baseEntry (tbl : StagingTable T) (tid : Option T)
    (key : Bytes) :
    (getVersionizedValueForUpdate tbl tid key true).1 = some (baseEntry tbl tid key) := by
  unfold baseEntry
  cases h : mapIndex (tidValuesOf tbl tid) (Hex key) with
  | some e => rw [getVersionizedValueForUpdate_held tbl tid key true e h]
  | none =>
    rw [getVersionizedValueForUpdate_not_held tbl tid key true h]
    have hf := getVersionizedValuesOfTid_final tbl tid
    cases hfin : mapIndex tbl.finalVersionizedValue (Hex key) with
    | some f =>
      rw [getAndIncr_present _ _ _ _ _ f (by rw [hf]; exact hfin)]
      rfl
    | none =>
      rw [getAndIncr_absent_create _ _ _ _ (by rw [hf]; exact hfin)]
      rfl

/-- C10. `Put` returns, and leaves in the map of `tid`, an entry whose value is `val` and whose
write intent is `dirty`, with owner, baseline, assigned version and deletion flag as they were
before the call or, without an entry before the call, as materialised (`baseEntry`); so a `Put`
on an entry marked deleted leaves it marked deleted.  `Del` returns, and leaves in the map, an
entry with deletion and write intent true and with value, owner, baseline and assigned version
as before or as materialised. -/
theorem write_marking (tbl : StagingTable T) (tid : Option T) (key : Bytes) :
    (∀ val dirty, ∃ e tbl1, Put tbl tid key val dirty = some (e, tbl1)
        ∧ mapIndex (tidValuesOf tbl1 tid) (Hex key) = some e
        ∧ e.val = val ∧ e.dirty = dirty
        ∧ e.tid = (baseEntry tbl tid key).tid ∧ e.old = (baseEntry tbl tid key).old
        ∧ e.new = (baseEntry tbl tid key).new ∧ e.deleted = (baseEntry tbl tid key).deleted
        ∧ (∀ e0, mapIndex (tidValuesOf tbl tid) (Hex key) = some e0 →
            e0.deleted = true → e.deleted = true))
      ∧ (∃ e tbl1, Del tbl tid key = some (e, tbl1)
        ∧ mapIndex (tidValuesOf tbl1 tid) (Hex key) = some e
        ∧ e.deleted = true ∧ e.dirty = true
        ∧ e.val = (baseEntry tbl tid key).val ∧ e.tid = (baseEntry tbl tid key).tid
        ∧ e.old = (baseEntry tbl tid key).old ∧ e.new = (baseEntry tbl tid key).new) := by
  have hbase := getVersionizedValueForUpdate_eq_baseEntry tbl tid key
  constructor
  · intro val dirty
    obtain ⟨base, hb, hput⟩ := Put_eq tbl tid key val dirty
    rw [hbase, Option.some.injEq] at hb
    subst hb
    refine ⟨_, _, hput, mapIndex_setTidValue_self _ _ _ _, rfl, rfl, rfl, rfl, rfl, rfl, ?_⟩
    intro e0 he0 hd
    show (baseEntry tbl tid key).deleted = true
    simp only [baseEntry, he0]
    exact hd
  · obtain ⟨base, hb, hdel⟩ := Del_eq tbl tid key
    rw [hbase, Option.some.injEq] at hb
    subst hb
    exact ⟨_, _, hdel, mapIndex_setTidValue_self _ _ _ _, rfl, rfl, rfl, rfl, rfl, rfl⟩

/-- A `Put` on an entry that `Del` has marked keeps the deletion flag. -/
theorem Put_after_Del_keeps_deleted :
    (Put (tableAfter [Op.Del (some 1) keyK]) (some 1) keyK (some [97]) true).map
        (fun r => (r.1.val, r.1.dirty, r.1.deleted, r.1.old, r.1.new))
      = some (some [97], true, true, 0, 1) := rfl

/-! ## C6: isolation between transactions -/

/-- The views after `MergeToFinal` are the views as `getVersionizedValuesOfTid` left them. -/
theorem MergeToFinal_all (tbl tbl1 : StagingTable T) (tid : Option T)
    (r : Option (List (Option T)) × Option MergeError)
    (h : MergeToFinal tbl tid = some (r, tbl1)) :
    tbl1.allVersionizedValues = (getVersionizedValuesOfTid tbl tid).2.allVersionizedValues := by
  unfold MergeToFinal at h
  simp only at h
  split at h
  · exact absurd h (by simp)
  · split at h
    · simp only [Option.some.injEq, Prod.mk.injEq] at h
      rw [← h.2]
    · split at h
      · exact absurd h (by simp)
      · simp only [Option.some.injEq, Prod.mk.injEq] at h
        rw [← h.2]

/-- A call made with the identifier `u` leaves the view of every other identifier alone. -/
theorem step_lookup_ne (tbl tbl1 : StagingTable T) (t u : T) (htu : t ≠ u) (o : Op T)
    (ho : o.tid = some u) (hstep : step tbl o = some tbl1) :
    tbl1.allVersionizedValues.lookup t = tbl.allVersionizedValues.lookup t := by
  cases o with
  | Get tid key =>
    simp only [Op.tid] at ho
    subst ho
    simp only [step, Get, Option.some.injEq] at hstep
    rw [← hstep]
    exact getVersionizedValueForUpdate_lookup_ne tbl u t key false htu
  | Put tid key val dirty =>
    simp only [Op.tid] at ho
    subst ho
    obtain ⟨base, -, hput⟩ := Put_eq tbl (some u) key val dirty
    simp only [step, hput, Option.map_some', Option.some.injEq] at hstep
    rw [← hstep, setTidValue_lookup_ne _ _ _ _ _ htu]
    exact getVersionizedValueForUpdate_lookup_ne tbl u t key true htu
  | Del tid key =>
    simp only [Op.tid] at ho
    subst ho
    obtain ⟨base, -, hdel⟩ := Del_eq tbl (some u) key
    simp only [step, hdel, Option.map_some', Option.some.injEq] at hstep
    rw [← hstep, setTidValue_lookup_ne _ _ _ _ _ htu]
    exact getVersionizedValueForUpdate_lookup_ne tbl u t key true htu
  | Purge tid =>
    simp only [Op.tid] at ho
    subst ho
    simp only [step, Purge, Option.some.injEq] at hstep
    rw [← hstep]
    exact AList.lookup_erase_ne htu
  | MergeToFinal tid =>
    simp only [Op.tid] at ho
    subst ho
    simp only [step, Option.map_eq_some', Prod.exists, exists_eq_right] at hstep
    obtain ⟨d, err, hm⟩ := hstep
    rw [MergeToFinal_all tbl tbl1 (some u) (d, err) hm]
    exact getVersionizedValuesOfTid_lookup_ne tbl u t htu

/-- C6 (as stated, refuted for a key that `t` has not materialised). On a new table `Get(1, K)`
returns absence; after `Put(2, K, "b", true)` by the other transaction it returns an entry
derived from the baseline that the `Put` created. -/
theorem Get_of_unmaterialised_key_changes :
    (Get (NewStagingTable : StagingTable Nat) (some 1) keyK).1 = none
      ∧ step (NewStagingTable : StagingTable Nat) (Op.Put (some 2) keyK (some [98]) true)
          = some (tableAfter [Op.Put (some 2) keyK (some [98]) true])
      ∧ (Get (tableAfter [Op.Put (some 2) keyK (some [98]) true]) (some 1) keyK).1
          = some { tid := some 1, key := keyK, val := none, old := 0, new := 1,
                   dirty := false, deleted := false } :=
  ⟨rfl, rfl, rfl⟩

/-- C6 (amended: `Get` is stable for the keys that `t` holds an entry for). For distinct non-nil
`t` and `u`, a `Get`, `Put`, `Del`, `Purge` or `MergeToFinal` made with `u` leaves the view of
`t` as it is; hence for every key that the view of `t` holds an entry for, `Get(t, key)`
returns that same entry after the call as before it. -/
theorem other_transaction_view_unchanged (tbl tbl1 : StagingTable T) (t u : T) (htu : t ≠ u)
    (o : Op T) (ho : o.tid = some u) (hstep : step tbl o = some tbl1) :
    tbl1.allVersionizedValues.lookup t = tbl.allVersionizedValues.lookup t
      ∧ ∀ key e, mapIndex (tidValuesOf tbl (some t)) (Hex key) = some e →
          (Get tbl (some t) key).1 = some e ∧ (Get tbl1 (some t) key).1 = some e := by
  have hl := step_lookup_ne tbl tbl1 t u htu o ho hstep
  refine ⟨hl, ?_⟩
  intro key e he
  have he1 : mapIndex (tidValuesOf tbl1 (some t)) (Hex key) = some e := by
    simp only [tidValuesOf] at he ⊢
    rw [hl]
    exact he
  unfold Get
  rw [getVersionizedValueForUpdate_held tbl (some t) key false e he,
    getVersionizedValueForUpdate_held tbl1 (some t) key false e he1]
  exact ⟨rfl, rfl⟩

/-- C6 at a concrete table: transaction 2 holds `K` with baseline 0 while transaction 1 merges
revision 1 of `K`; its `Get` still returns the entry with baseline 0. -/
theorem other_transaction_view_unchanged_witness :
    (1 : Nat) ≠ 2 ∧ (2 : Nat) ≠ 1
      ∧ step (tableAfter [Op.Put (some 1) keyK (some [97]) true,
            Op.Put (some 2) keyK (some [98]) true]) (Op.MergeToFinal (some 1))
          = some conflictTable
      ∧ (mapIndex conflictTable.finalVersionizedValue (Hex keyK)).map (fun f => f.new) = some 1
      ∧ (Get conflictTable (some 2) keyK).1
          = some { tid := some 2, key := keyK, val := some [98], old := 0, new := 1,
                   dirty := true, deleted := false } :=
  ⟨by decide, by decide, rfl, rfl,
    ((other_transaction_view_unchanged
      (tableAfter [Op.Put (some 1) keyK (some [97]) true, Op.Put (some 2) keyK (some [98]) true])
      conflictTable 2 1 (by decide) (Op.MergeToFinal (some 1)) rfl (by rfl)).2 keyK _
        (by rfl)).2⟩

/-! ## How one call moves the versions -/

theorem tidValuesOf_congr (tbl1 tbl : StagingTable T) (t : T)
    (h : tbl1.allVersionizedValues.lookup t = tbl.allVersionizedValues.lookup t) :
    tidValuesOf tbl1 (some t) = tidValuesOf tbl (some t) := by
  simp only [tidValuesOf, h]

theorem finalKeeps_refl (k : String) (tbl : StagingTable T) : FinalKeeps k tbl tbl :=
  fun f hf => ⟨f, hf, rfl⟩

theorem finalKeeps_trans {k : String} {a b c : StagingTable T} (h1 : FinalKeeps k a b)
    (h2 : FinalKeeps k b c) : FinalKeeps k a c := by
  intro f hf
  obtain ⟨f1, hf1, hn1⟩ := h1 f hf
  obtain ⟨f2, hf2, hn2⟩ := h2 f1 hf1
  exact ⟨f2, hf2, hn2.trans hn1⟩

theorem finalKeeps_of_eq {k : String} {a b : StagingTable T}
    (h : mapIndex b.finalVersionizedValue k = mapIndex a.finalVersionizedValue k) :
    FinalKeeps k a b :=
  fun f hf => ⟨f, h.trans hf, rfl⟩

theorem viewOrigin_of_eq {t : T} {k : String} {a b : StagingTable T}
    (h : mapIndex (tidValuesOf b (some t)) k = mapIndex (tidValuesOf a (some t)) k) :
    ViewOrigin t k a b :=
  fun e he => Or.inl ⟨e, h ▸ he, rfl, rfl⟩

theorem viewOrigin_trans {t : T} {k : String} {a b c : StagingTable T}
    (h1 : ViewOrigin t k a b) (h2 : ViewOrigin t k b c) (hf : FinalKeeps k b c) :
    ViewOrigin t k a c := by
  intro e he
  rcases h2 e he with ⟨e0, he0, ho, hn⟩ | hr
  · rcases h1 e0 he0 with ⟨e1, he1, ho1, hn1⟩ | ⟨f, hfb, ho1, hn1⟩
    · exact Or.inl ⟨e1, he1, ho1.trans ho, hn1.trans hn⟩
    · obtain ⟨f1, hf1, hnew⟩ := hf f hfb
      refine Or.inr ⟨f1, hf1, ?_, ?_⟩
      · rw [← ho, ho1, hnew]
      · rw [← hn, hn1, hnew]
  · exact Or.inr hr

/-- The method `getAndIncrValueFromFinalVersionValue` touches the Final Store at its own key
only. -/
theorem getAndIncr_final_ne (tbl : StagingTable T) (tid : Option T) (keyStr : String)
    (key : Bytes) (c : Bool) (k : String) (hk : k ≠ keyStr) :
    mapIndex (getAndIncrValueFromFinalVersionValue tbl tid keyStr key c).2.finalVersionizedValue
      k = mapIndex tbl.finalVersionizedValue k := by
  cases h : mapIndex tbl.finalVersionizedValue keyStr with
  | some f => rw [getAndIncr_present tbl tid keyStr key c f h]
  | none =>
    cases c with
    | true =>
      rw [getAndIncr_absent_create tbl tid keyStr key h]
      exact mapIndex_insert_ne _ _ hk
    | false => rw [getAndIncr_absent_read tbl tid keyStr key h]

/-- What `getAndIncrValueFromFinalVersionValue` returns is derived from the entry that the
Final Store holds for the key afterwards. -/
theorem getAndIncr_derived (tbl : StagingTable T) (tid : Option T) (keyStr : String)
    (key : Bytes) (c : Bool) (e : VersionizedValueItem T)
    (h : (getAndIncrValueFromFinalVersionValue tbl tid keyStr key c).1 = some e) :
    ∃ f, mapIndex
        (getAndIncrValueFromFinalVersionValue tbl tid keyStr key c).2.finalVersionizedValue
        keyStr = some f
      ∧ e = IncrVersionizedValueItem tid f := by
  cases hfin : mapIndex tbl.finalVersionizedValue keyStr with
  | some f =>
    rw [getAndIncr_present tbl tid keyStr key c f hfin] at h ⊢
    simp only [Option.some.injEq] at h
    exact ⟨f, hfin, h.symm⟩
  | none =>
    cases c with
    | true =>
      rw [getAndIncr_absent_create tbl tid keyStr key hfin] at h ⊢
      simp only [Option.some.injEq] at h
      exact ⟨_, mapIndex_insert_self _ _ _, h.symm⟩
    | false =>
      rw [getAndIncr_absent_read tbl tid keyStr key hfin] at h
      exact absurd h (by simp)

/-- An entry of the Final Store stays as it is under `getAndIncrValueFromFinalVersionValue`. -/
theorem getAndIncr_final_keep (tbl : StagingTable T) (tid : Option T) (keyStr : String)
    (key : Bytes) (c : Bool) (k : String) (f : VersionizedValueItem T)
    (hf : mapIndex tbl.finalVersionizedValue k = some f) :
    mapIndex (getAndIncrValueFromFinalVersionValue tbl tid keyStr key c).2.finalVersionizedValue
      k = some f := by
  by_cases hk : k = keyStr
  · subst hk
    rw [getAndIncr_present tbl tid k key c f hf]
    exact hf
  · rw [getAndIncr_final_ne tbl tid keyStr key c k hk]
    exact hf

/-- An entry of the Final Store stays as it is under `getVersionizedValueForUpdate`. -/
theorem getVersionizedValueForUpdate_final_keep (tbl : StagingTable T) (tid : Option T)
    (key : Bytes) (c : Bool) (k : String) (f : VersionizedValueItem T)
    (hf : mapIndex tbl.finalVersionizedValue k = some f) :
    mapIndex (getVersionizedValueForUpdate tbl tid key c).2.finalVersionizedValue k
      = some f := by
  cases h : mapIndex (tidValuesOf tbl tid) (Hex key) with
  | some e => rw [getVersionizedValueForUpdate_held tbl tid key c e h]; exact hf
  | none =>
    rw [getVersionizedValueForUpdate_not_held tbl tid key c h]
    have hfin := getVersionizedValuesOfTid_final tbl tid
    have hg := getAndIncr_final_keep (getVersionizedValuesOfTid tbl tid).2 tid (Hex key) key c
      k f (by rw [hfin]; exact hf)
    cases tid with
    | some t => rw [setTidValue_final_some]; exact hg
    | none =>
      have hk : k ≠ Hex key := by
        intro hk
        subst hk
        simp only [tidValuesOf] at h
        rw [h] at hf
        exact absurd hf (by simp)
      show mapIndex (AList.insert (Hex key) _ _) k = some f
      rw [mapIndex_insert_ne _ _ hk]
      exact hg

theorem getVersionizedValueForUpdate_finalKeeps (tbl : StagingTable T) (tid : Option T)
    (key : Bytes) (c : Bool) (k : String) :
    FinalKeeps k tbl (getVersionizedValueForUpdate tbl tid key c).2 :=
  fun f hf => ⟨f, getVersionizedValueForUpdate_final_keep tbl tid key c k f hf, rfl⟩

/-- The views under `getVersionizedValueForUpdate`: an entry is either the one that was there
or a fresh increment of the Final Store entry. -/
theorem getVersionizedValueForUpdate_viewOrigin (tbl : StagingTable T) (tid : Option T)
    (key : Bytes) (c : Bool) (t : T) (k : String) :
    ViewOrigin t k tbl (getVersionizedValueForUpdate tbl tid key c).2 := by
  cases h : mapIndex (tidValuesOf tbl tid) (Hex key) with
  | some e =>
    rw [getVersionizedValueForUpdate_held tbl tid key c e h]
    exact viewOrigin_of_eq rfl
  | none =>
    cases tid with
    | none =>
      apply viewOrigin_of_eq
      rw [tidValuesOf_congr (getVersionizedValueForUpdate tbl none key c).2 tbl t
        (by rw [getVersionizedValueForUpdate_all_none])]
    | some u =>
      by_cases htu : t = u
      · subst htu
        rw [getVersionizedValueForUpdate_not_held tbl (some t) key c h]
        by_cases hk : k = Hex key
        · subst hk
          intro e he
          rw [mapIndex_setTidValue_self] at he
          obtain ⟨f, hf, hef⟩ := getAndIncr_derived _ _ _ _ _ e he
          refine Or.inr ⟨f, ?_, ?_, ?_⟩
          · rw [setTidValue_final_some]; exact hf
          · rw [hef]; rfl
          · rw [hef]; rfl
        · apply viewOrigin_of_eq
          rw [tidValuesOf_setTidValue_self, mapIndex_insert_ne _ _ hk,
            tidValuesOf_congr
              (getAndIncrValueFromFinalVersionValue (getVersionizedValuesOfTid tbl (some t)).2
                (some t) (Hex key) key c).2
              (getVersionizedValuesOfTid tbl (some t)).2 t (by rw [getAndIncr_all]),
            getVersionizedValuesOfTid_tidValuesOf]
      · apply viewOrigin_of_eq
        rw [tidValuesOf_congr (getVersionizedValueForUpdate tbl (some u) key c).2 tbl t
          (getVersionizedValueForUpdate_lookup_ne tbl u t key c htu)]

/-- The Final Store under a field write through the pointer that the map of `tid` holds: the
versions stay. -/
theorem setTidValue_finalKeeps (tbl : StagingTable T) (tid : Option T) (keyStr : String)
    (base e : VersionizedValueItem T) (k : String)
    (hbase : mapIndex (tidValuesOf tbl tid) keyStr = some base) (hnew : e.new = base.new) :
    FinalKeeps k tbl (setTidValue tbl tid keyStr (some e)) := by
  cases tid with
  | some t => exact finalKeeps_of_eq rfl
  | none =>
    by_cases hk : k = keyStr
    · subst hk
      intro f hf
      simp only [tidValuesOf] at hbase
      rw [hbase, Option.some.injEq] at hf
      subst hf
      exact ⟨e, mapIndex_insert_self _ _ _, hnew⟩
    · exact finalKeeps_of_eq (mapIndex_insert_ne _ _ hk)

/-- The views under a field write through the pointer that the map of `tid` holds: the
versions stay. -/
theorem setTidValue_viewOrigin (tbl : StagingTable T) (tid : Option T) (keyStr : String)
    (base e : VersionizedValueItem T) (t : T) (k : String)
    (hbase : mapIndex (tidValuesOf tbl tid) keyStr = some base) (hold : e.old = base.old)
    (hnew : e.new = base.new) :
    ViewOrigin t k tbl (setTidValue tbl tid keyStr (some e)) := by
  cases tid with
  | none => exact viewOrigin_of_eq rfl
  | some u =>
    by_cases htu : t = u
    · subst htu
      by_cases hk : k = keyStr
      · subst hk
        intro e1 he1
        rw [mapIndex_setTidValue_self, Option.some.injEq] at he1
        subst he1
        exact Or.inl ⟨base, hbase, hold.symm, hnew.symm⟩
      · apply viewOrigin_of_eq
        rw [tidValuesOf_setTidValue_self, mapIndex_insert_ne _ _ hk]
    · apply viewOrigin_of_eq
      rw [tidValuesOf_congr (setTidValue tbl (some u) keyStr (some e)) tbl t
        (setTidValue_lookup_ne tbl u t keyStr (some e) htu)]

/-- The table after `Put`. -/
theorem step_Put (tbl tbl1 : StagingTable T) (tid : Option T) (key : Bytes)
    (val : Option Bytes) (dirty : Bool) (h : step tbl (Op.Put tid key val dirty) = some tbl1) :
    ∃ base e, mapIndex (tidValuesOf (getVersionizedValueForUpdate tbl tid key true).2 tid)
        (Hex key) = some base
      ∧ e.old = base.old ∧ e.new = base.new
      ∧ tbl1 = setTidValue (getVersionizedValueForUpdate tbl tid key true).2 tid (Hex key)
          (some e) := by
  obtain ⟨base, hb, hput⟩ := Put_eq tbl tid key val dirty
  simp only [step, hput, Option.map_some', Option.some.injEq] at h
  refine ⟨base, _, ?_, ?_, ?_, h.symm⟩
  · rw [getVersionizedValueForUpdate_cached, hb]
  · rfl
  · rfl

/-- The table after `Del`. -/
theorem step_Del (tbl tbl1 : StagingTable T) (tid : Option T) (key : Bytes)
    (h : step tbl (Op.Del tid key) = some tbl1) :
    ∃ base e, mapIndex (tidValuesOf (getVersionizedValueForUpdate tbl tid key true).2 tid)
        (Hex key) = some base
      ∧ e.old = base.old ∧ e.new = base.new
      ∧ tbl1 = setTidValue (getVersionizedValueForUpdate tbl tid key true).2 tid (Hex key)
          (some e) := by
  obtain ⟨base, hb, hdel⟩ := Del_eq tbl tid key
  simp only [step, hdel, Option.map_some', Option.some.injEq] at h
  refine ⟨base, _, ?_, ?_, ?_, h.symm⟩
  · rw [getVersionizedValueForUpdate_cached, hb]
  · rfl
  · rfl

/-- The method `MergeToFinal` leaves every view as it is. -/
theorem MergeToFinal_tidValuesOf (tbl tbl1 : StagingTable T) (tid : Option T)
    (r : Option (List (Option T)) × Option MergeError)
    (h : MergeToFinal tbl tid = some (r, tbl1)) (t : T) :
    tidValuesOf tbl1 (some t) = tidValuesOf tbl (some t) := by
  rw [tidValuesOf_congr tbl1 (getVersionizedValuesOfTid tbl tid).2 t
    (by rw [MergeToFinal_all tbl tbl1 tid r h]), getVersionizedValuesOfTid_tidValuesOf]

/-- Every call leaves in a view only entries that were there, with their versions, or fresh
increments of Final Store entries. -/
theorem step_viewOrigin (tbl tbl1 : StagingTable T) (o : Op T) (h : step tbl o = some tbl1)
    (t : T) (k : String) : ViewOrigin t k tbl tbl1 := by
  cases o with
  | Get tid key =>
    simp only [step, Get, Option.some.injEq] at h
    rw [← h]
    exact getVersionizedValueForUpdate_viewOrigin tbl tid key false t k
  | Put tid key val dirty =>
    obtain ⟨base, e, hb, ho, hn, ht⟩ := step_Put tbl tbl1 tid key val dirty h
    rw [ht]
    exact viewOrigin_trans (getVersionizedValueForUpdate_viewOrigin tbl tid key true t k)
      (setTidValue_viewOrigin _ tid (Hex key) base e t k hb ho hn)
      (setTidValue_finalKeeps _ tid (Hex key) base e k hb hn)
  | Del tid key =>
    obtain ⟨base, e, hb, ho, hn, ht⟩ := step_Del tbl tbl1 tid key h
    rw [ht]
    exact viewOrigin_trans (getVersionizedValueForUpdate_viewOrigin tbl tid key true t k)
      (setTidValue_viewOrigin _ tid (Hex key) base e t k hb ho hn)
      (setTidValue_finalKeeps _ tid (Hex key) base e k hb hn)
  | Purge tid =>
    simp only [step, Option.some.injEq] at h
    rw [← h]
    cases tid with
    | none => exact viewOrigin_of_eq rfl
    | some u =>
      by_cases htu : t = u
      · subst htu
        intro e he
        simp [Purge, tidValuesOf, AList.lookup_erase, mapIndex] at he
      · apply viewOrigin_of_eq
        rw [tidValuesOf_congr (Purge tbl (some u)) tbl t (AList.lookup_erase_ne htu)]
  | MergeToFinal tid =>
    simp only [step, Option.map_eq_some', Prod.exists, exists_eq_right] at h
    obtain ⟨d, err, hm⟩ := h
    apply viewOrigin_of_eq
    rw [MergeToFinal_tidValuesOf tbl tbl1 tid (d, err) hm t]

/-- Every call that does not merge a write to the key leaves the assigned version of the Final
Store entry of the key as it is. -/
theorem step_finalKeeps (tbl tbl1 : StagingTable T) (o : Op T) (h : step tbl o = some tbl1)
    (k : String) (hm : mergesWriteTo tbl k o = false) : FinalKeeps k tbl tbl1 := by
  cases o with
  | Get tid key =>
    simp only [step, Get, Option.some.injEq] at h
    rw [← h]
    exact getVersionizedValueForUpdate_finalKeeps tbl tid key false k
  | Put tid key val dirty =>
    obtain ⟨base, e, hb, -, hn, ht⟩ := step_Put tbl tbl1 tid key val dirty h
    rw [ht]
    exact finalKeeps_trans (getVersionizedValueForUpdate_finalKeeps tbl tid key true k)
      (setTidValue_finalKeeps _ tid (Hex key) base e k hb hn)
  | Del tid key =>
    obtain ⟨base, e, hb, -, hn, ht⟩ := step_Del tbl tbl1 tid key h
    rw [ht]
    exact finalKeeps_trans (getVersionizedValueForUpdate_finalKeeps tbl tid key true k)
      (setTidValue_finalKeeps _ tid (Hex key) base e k hb hn)
  | Purge tid =>
    simp only [step, Option.some.injEq] at h
    rw [← h]
    cases tid with
    | none => exact finalKeeps_refl k tbl
    | some u => exact finalKeeps_of_eq rfl
  | MergeToFinal tid =>
    simp only [step, Option.map_eq_some', Prod.exists, exists_eq_right] at h
    obtain ⟨d, err, hmerge⟩ := h
    cases err with
    | some err =>
      cases err
      rw [(MergeToFinal_conflict_unchanged tbl tbl1 tid d hmerge).1]
      exact finalKeeps_refl k tbl
    | none =>
      obtain ⟨hmv, -, -⟩ := MergeToFinal_success tbl tbl1 tid d hmerge
      cases tid with
      | some u =>
        apply finalKeeps_of_eq
        unfold mapIndex
        rw [mergeValues_lookup_of_not_dirty _ k ?_ _ _ hmv]
        intro e he
        have hl : mapIndex (tidValuesOf tbl (some u)) k = some e :=
          (mapIndex_eq_some_iff _ _ _).mpr (AList.mem_lookup_iff.mpr he)
        simp only [mergesWriteTo, hmerge, hl] at hm
        exact hm
      | none =>
        intro f hf
        have hmem : (⟨k, some f⟩ : Σ _ : String, Option (VersionizedValueItem T))
            ∈ (tidValuesOf tbl none).entries :=
          AList.mem_lookup_iff.mp ((mapIndex_eq_some_iff _ _ _).mp hf)
        cases hd : f.dirty with
        | true =>
          refine ⟨f.CloneForFinal, ?_, rfl⟩
          rw [mapIndex_eq_some_iff]
          exact mergeValues_lookup_of_dirty _ (tidValuesOf tbl none).nodupKeys k f hmem hd
            _ _ hmv
        | false =>
          refine ⟨f, ?_, rfl⟩
          rw [mapIndex_eq_some_iff,
            mergeValues_lookup_of_not_dirty _ k ?_ _ _ hmv]
          · exact (mapIndex_eq_some_iff _ _ _).mp hf
          · intro e he
            have he1 : mapIndex tbl.finalVersionizedValue k = some e :=
              (mapIndex_eq_some_iff _ _ _).mpr (AList.mem_lookup_iff.mpr he)
            rw [hf, Option.some.injEq] at he1
            rw [← he1]
            exact hd

/-- Freshness of a view for a key passes along a call that keeps the version of the key. -/
theorem fresh_step {tbl tbl1 : StagingTable T} {t : T} {k : String} (hfresh : Fresh tbl t k)
    (hv : ViewOrigin t k tbl tbl1) (hf : FinalKeeps k tbl tbl1) : Fresh tbl1 t k := by
  intro e he
  rcases hv e he with ⟨e0, he0, ho, -⟩ | ⟨f, hf1, ho, -⟩
  · obtain ⟨f, hf0, hof⟩ := hfresh e0 he0
    obtain ⟨f1, hf1, hn⟩ := hf f hf0
    exact ⟨f1, hf1, by rw [← ho, hof, hn]⟩
  · exact ⟨f, hf1, ho⟩

theorem run_append (ops1 ops2 : List (Op T)) :
    ∀ tbl : StagingTable T, run tbl (ops1 ++ ops2) = (run tbl ops1).bind fun s => run s ops2 := by
  induction ops1 with
  | nil => intro tbl; rfl
  | cons o os ih =>
    intro tbl
    simp only [List.cons_append, run]
    cases step tbl o with
    | none => rfl
    | some s => simp only [Option.some_bind]; exact ih s

/-- Freshness of a view for a key passes along a sequence of calls none of which merges a
write to the key. -/
theorem run_fresh (t : T) (k : String) (ops : List (Op T)) :
    ∀ tbl tbl1 : StagingTable T, run tbl ops = some tbl1 → noMergedWrite k tbl ops = true →
      Fresh tbl t k → Fresh tbl1 t k := by
  induction ops with
  | nil =>
    intro tbl tbl1 h _ hfresh
    simp only [run, Option.some.injEq] at h
    rw [← h]
    exact hfresh
  | cons o os ih =>
    intro tbl tbl1 h hno hfresh
    simp only [run] at h
    cases hs : step tbl o with
    | none => rw [hs] at h; exact absurd h (by simp)
    | some s =>
      rw [hs, Option.some_bind] at h
      simp only [noMergedWrite, hs, Bool.and_eq_true, Bool.not_eq_true'] at hno
      exact ih s tbl1 h hno.2
        (fresh_step hfresh (step_viewOrigin tbl s o hs t k)
          (step_finalKeeps tbl s o hs k hno.1))

/-- In every reachable table every entry of every view has, as assigned version, its baseline
plus one. -/
theorem run_viewVersions (ops : List (Op T)) :
    ∀ tbl tbl1 : StagingTable T, run tbl ops = some tbl1 → ViewVersions tbl →
      ViewVersions tbl1 := by
  induction ops with
  | nil =>
    intro tbl tbl1 h hv
    simp only [run, Option.some.injEq] at h
    rw [← h]
    exact hv
  | cons o os ih =>
    intro tbl tbl1 h hv
    simp only [run] at h
    cases hs : step tbl o with
    | none => rw [hs] at h; exact absurd h (by simp)
    | some s =>
      rw [hs, Option.some_bind] at h
      refine ih s tbl1 h ?_
      intro t k e he
      rcases step_viewOrigin tbl s o hs t k e he with ⟨e0, he0, ho, hn⟩ | ⟨f, -, ho, hn⟩
      · rw [← ho, ← hn]; exact hv t k e0 he0
      · rw [ho, hn]

theorem ViewVersions_new : ViewVersions (NewStagingTable : StagingTable T) := by
  intro t k e he
  simp [NewStagingTable, tidValuesOf, mapIndex] at he

/-! ## First committer wins, on views without `nil` slots -/

/-- The behaviour that C4 describes, proved for views that hold no `nil` slot: in a reachable
table in which the distinct `t1` and `t2` both hold `K` with write intent and a baseline equal
to the assigned version of the Final Store entry of `K`, and `t1` has no conflicting written
key, `MergeToFinal t1` succeeds and raises the assigned version of `K` by 1, and the following
`MergeToFinal t2` returns the conflict error and leaves the table as it is. -/
theorem first_committer_wins_of_no_nil (ops : List (Op T)) (tbl : StagingTable T) (t1 t2 : T)
    (k : String) (e1 e2 f : VersionizedValueItem T)
    (hrun : run NewStagingTable ops = some tbl)
    (h1 : mapIndex (tidValuesOf tbl (some t1)) k = some e1) (hd1 : e1.dirty = true)
    (h2 : mapIndex (tidValuesOf tbl (some t2)) k = some e2) (hd2 : e2.dirty = true)
    (_hf : mapIndex tbl.finalVersionizedValue k = some f)
    (hb1 : e1.old = f.new) (hb2 : e2.old = f.new)
    (hnil1 : ∀ x ∈ (tidValuesOf tbl (some t1)).entries, x.2 ≠ none)
    (hnil2 : ∀ x ∈ (tidValuesOf tbl (some t2)).entries, x.2 ≠ none)
    (hno : ¬ ∃ x ∈ (tidValuesOf tbl (some t1)).entries,
      Conflicting tbl.finalVersionizedValue x.1 x.2) :
    ∃ deps tbl1 f1, MergeToFinal tbl (some t1) = some ((some deps, none), tbl1)
      ∧ mapIndex tbl1.finalVersionizedValue k = some f1 ∧ f1.new = f.new + 1
      ∧ MergeToFinal tbl1 (some t2)
        = some ((none, some MergeError.ErrStagingTableKeyConfliction), tbl1) := by
  have hvers := run_viewVersions ops NewStagingTable tbl hrun ViewVersions_new
  obtain ⟨deps, tbl1, hmerge⟩ := (MergeToFinal_of_no_nil tbl (some t1) hnil1).2 hno
  obtain ⟨hmv, -, -⟩ := MergeToFinal_success tbl tbl1 (some t1) (some deps) hmerge
  have hmem : (⟨k, some e1⟩ : Σ _ : String, Option (VersionizedValueItem T))
      ∈ (tidValuesOf tbl (some t1)).entries :=
    AList.mem_lookup_iff.mp ((mapIndex_eq_some_iff _ _ _).mp h1)
  have hfin1 : mapIndex tbl1.finalVersionizedValue k = some e1.CloneForFinal := by
    rw [mapIndex_eq_some_iff]
    exact mergeValues_lookup_of_dirty _ (tidValuesOf tbl (some t1)).nodupKeys k e1 hmem hd1
      _ _ hmv
  have hnew : e1.CloneForFinal.new = f.new + 1 := by
    show e1.new = f.new + 1
    rw [hvers t1 k e1 h1, hb1]
  have hview2 := MergeToFinal_tidValuesOf tbl tbl1 (some t1) _ hmerge t2
  refine ⟨deps, tbl1, _, hmerge, hfin1, hnew, ?_⟩
  apply (MergeToFinal_of_no_nil tbl1 (some t2) (by rw [hview2]; exact hnil2)).1
  refine ⟨⟨k, some e2⟩, ?_, e2, e1.CloneForFinal, rfl, hd2, hfin1, ?_⟩
  · rw [hview2]
    exact AList.mem_lookup_iff.mp ((mapIndex_eq_some_iff _ _ _).mp h2)
  · rw [hnew, hb2]
    omega

/-- The scenario of C4 on a new table: both `Put`s yield `{old:0, new:1, dirty:true}`, the
merge of transaction 1 succeeds and leaves `K = {old:0, new:1, val:"a"}` in the Final Store,
and the merge of transaction 2 returns the conflict error. -/
theorem first_committer_wins_scenario :
    (Put (NewStagingTable : StagingTable Nat) (some 1) keyK (some [97]) true).map
        (fun r => (r.1.old, r.1.new, r.1.dirty)) = some (0, 1, true)
      ∧ (Put singleWriteTable (some 2) keyK (some [98]) true).map
        (fun r => (r.1.old, r.1.new, r.1.dirty)) = some (0, 1, true)
      ∧ (MergeToFinal (tableAfter [Op.Put (some 1) keyK (some [97]) true,
            Op.Put (some 2) keyK (some [98]) true]) (some 1)).map
          (fun r => (r.1, mapIndex r.2.finalVersionizedValue (Hex keyK)))
        = some ((some [none], none),
            some { tid := some 1, key := keyK, val := some [97], old := 0, new := 1,
                   dirty := false, deleted := false })
      ∧ MergeToFinal conflictTable (some 2)
        = some ((none, some MergeError.ErrStagingTableKeyConfliction), conflictTable) :=
  ⟨rfl, rfl, rfl, rfl⟩

/-! ## C5: clean commit -/

/-- C5 (as stated, refuted). Transaction 1 writes `K` and merges; no other transaction exists.
Its next `MergeToFinal`, with nothing in between, returns the conflict error: the view still
holds `K` with baseline 0 while its own merge has raised the assigned version to 1. -/
theorem MergeToFinal_again_conflicts :
    run (NewStagingTable : StagingTable Nat)
        [Op.Put (some 1) keyK (some [97]) true, Op.MergeToFinal (some 1)] = some mergedTable
      ∧ mergedTable.allVersionizedValues.keys = [1]
      ∧ MergeToFinal mergedTable (some 1)
        = some ((none, some MergeError.ErrStagingTableKeyConfliction), mergedTable) :=
  ⟨rfl, rfl, rfl⟩

/-- C5 (amended: no transaction at all, `tid` included, has merged a write to the key; views
with a `nil` slot are left aside). Let `ops` be a sequence of calls that runs from a new table
to `tbl`, and let the view of the non-nil `t` hold no `nil` slot.  If for every key that the
view holds with write intent there is a point of the sequence at which the view held no entry
for the key (so the entry was materialised after it) and after which no call merged a write to
the key, then `MergeToFinal t` succeeds, and for every such key the assigned version of the
Final Store entry after the merge is the one before the merge plus 1. -/
theorem MergeToFinal_clean_commit (ops : List (Op T)) (tbl : StagingTable T) (t : T)
    (hrun : run NewStagingTable ops = some tbl)
    (hnil : ∀ x ∈ (tidValuesOf tbl (some t)).entries, x.2 ≠ none)
    (hclean : ∀ k e, mapIndex (tidValuesOf tbl (some t)) k = some e → e.dirty = true →
      ∃ pre post tbl0, ops = pre ++ post ∧ run NewStagingTable pre = some tbl0
        ∧ mapIndex (tidValuesOf tbl0 (some t)) k = none ∧ noMergedWrite k tbl0 post = true) :
    ∃ deps tbl1, MergeToFinal tbl (some t) = some ((some deps, none), tbl1)
      ∧ ∀ k e, mapIndex (tidValuesOf tbl (some t)) k = some e → e.dirty = true →
          ∃ f f1, mapIndex tbl.finalVersionizedValue k = some f
            ∧ mapIndex tbl1.finalVersionizedValue k = some f1 ∧ f1.new = f.new + 1 := by
  have hfresh : ∀ k e, mapIndex (tidValuesOf tbl (some t)) k = some e → e.dirty = true →
      Fresh tbl t k := by
    intro k e he hd
    obtain ⟨pre, post, tbl0, hsplit, hpre, hnone, hno⟩ := hclean k e he hd
    have hpost : run tbl0 post = some tbl := by
      rw [hsplit, run_append, hpre] at hrun
      exact hrun
    refine run_fresh t k post tbl0 tbl hpost hno ?_
    intro e0 he0
    rw [hnone] at he0
    exact absurd he0 (by simp)
  have hvers := run_viewVersions ops NewStagingTable tbl hrun ViewVersions_new
  have hnoconf : ¬ ∃ x ∈ (tidValuesOf tbl (some t)).entries,
      Conflicting tbl.finalVersionizedValue x.1 x.2 := by
    rintro ⟨⟨k, v⟩, hx, e, f, hv, hd, hf, hne⟩
    simp only at hv hf
    subst hv
    have he : mapIndex (tidValuesOf tbl (some t)) k = some e :=
      (mapIndex_eq_some_iff _ _ _).mpr (AList.mem_lookup_iff.mpr hx)
    obtain ⟨f1, hf1, ho⟩ := hfresh k e he hd e he
    rw [hf, Option.some.injEq] at hf1
    subst hf1
    exact hne ho
  obtain ⟨deps, tbl1, hmerge⟩ := (MergeToFinal_of_no_nil tbl (some t) hnil).2 hnoconf
  refine ⟨deps, tbl1, hmerge, ?_⟩
  intro k e he hd
  obtain ⟨f, hf, ho⟩ := hfresh k e he hd e he
  obtain ⟨hmv, -, -⟩ := MergeToFinal_success tbl tbl1 (some t) (some deps) hmerge
  have hmem : (⟨k, some e⟩ : Σ _ : String, Option (VersionizedValueItem T))
      ∈ (tidValuesOf tbl (some t)).entries :=
    AList.mem_lookup_iff.mp ((mapIndex_eq_some_iff _ _ _).mp he)
  refine ⟨f, e.CloneForFinal, hf, ?_, ?_⟩
  · rw [mapIndex_eq_some_iff]
    exact mergeValues_lookup_of_dirty _ (tidValuesOf tbl (some t)).nodupKeys k e hmem hd _ _ hmv
  · show e.new = f.new + 1
    rw [hvers t k e he, ho]

/-- C5 at a concrete table: transaction 1 materialises and writes `K` after transaction 2 has
merged revision 1 of `K`; nothing is merged afterwards, and its merge installs revision 2. -/
theorem MergeToFinal_clean_commit_witness :
    run (NewStagingTable : StagingTable Nat)
        [Op.Put (some 2) keyK (some [98]) true, Op.MergeToFinal (some 2),
          Op.Put (some 1) keyK (some [97]) true] = some lateWriterTable
      ∧ (tidValuesOf lateWriterTable (some 1)).entries
        = [⟨Hex keyK, some { tid := some 1, key := keyK, val := some [97], old := 1, new := 2,
                             dirty := true, deleted := false }⟩]
      ∧ ∃ deps tbl1, MergeToFinal lateWriterTable (some 1) = some ((some deps, none), tbl1)
          ∧ ∀ k e, mapIndex (tidValuesOf lateWriterTable (some 1)) k = some e →
              e.dirty = true →
              ∃ f f1, mapIndex lateWriterTable.finalVersionizedValue k = some f
                ∧ mapIndex tbl1.finalVersionizedValue k = some f1 ∧ f1.new = f.new + 1 := by
  have hentries : (tidValuesOf lateWriterTable (some 1)).entries
      = [⟨Hex keyK, some { tid := some 1, key := keyK, val := some [97], old := 1, new := 2,
                           dirty := true, deleted := false }⟩] := rfl
  refine ⟨rfl, hentries, MergeToFinal_clean_commit
    [Op.Put (some 2) keyK (some [98]) true, Op.MergeToFinal (some 2),
      Op.Put (some 1) keyK (some [97]) true] lateWriterTable 1 (by rfl) ?_ ?_⟩
  · intro x hx
    rw [hentries, List.mem_singleton] at hx
    rw [hx]
    simp
  · intro k e he _
    have hmem := AList.mem_lookup_iff.mp ((mapIndex_eq_some_iff _ _ _).mp he)
    rw [hentries, List.mem_singleton] at hmem
    have hk : k = Hex keyK := congrArg Sigma.fst hmem
    subst hk
    exact ⟨[Op.Put (some 2) keyK (some [98]) true, Op.MergeToFinal (some 2)],
      [Op.Put (some 1) keyK (some [97]) true], _, rfl, rfl, rfl, rfl⟩

/-! ## C11: read immunity -/

/-- The first loop passes over a view without written entries and without `nil` slots. -/
theorem checkVersion_of_no_dirty (finalValues : stagingValuesMap T)
    (l : List (Σ _ : String, Option (VersionizedValueItem T)))
    (h : ∀ x ∈ l, ∃ e, x.2 = some e ∧ e.dirty = false) :
    ∀ (d : List (Option T)) (c : List (String × Option T)),
      checkVersion finalValues l d c = some (d, c) := by
  induction l with
  | nil => intro d c; rfl
  | cons x rest ih =>
    intro d c
    have ih1 := ih (fun y hy => h y (List.mem_cons_of_mem _ hy))
    obtain ⟨e, hx, hd⟩ := h x (List.mem_cons_self _ _)
    obtain ⟨k, v⟩ := x
    simp only at hx
    subst hx
    simp only [checkVersion, hd]
    split
    · exact ih1 d c
    · simp only [↓reduceIte]
      exact ih1 d c

/-- The second loop installs nothing from a view without written entries and without `nil`
slots. -/
theorem mergeValues_of_no_dirty (l : List (Σ _ : String, Option (VersionizedValueItem T)))
    (h : ∀ x ∈ l, ∃ e, x.2 = some e ∧ e.dirty = false) :
    ∀ finalValues : stagingValuesMap T, mergeValuesDone l finalValues = some finalValues := by
  induction l with
  | nil => intro fv; rfl
  | cons x rest ih =>
    intro fv
    have ih1 := ih (fun y hy => h y (List.mem_cons_of_mem _ hy))
    obtain ⟨e, hx, hd⟩ := h x (List.mem_cons_self _ _)
    obtain ⟨k, v⟩ := x
    simp only at hx
    subst hx
    simp only [mergeValuesDone_nil, mergeValuesDone_cons_none, mergeValuesDone_cons_some, hd, ↓reduceIte]
    exact ih1 fv

/-- The behaviour that C11 describes, proved for views that hold no `nil` slot: when the map of
`tid` holds no written entry, `MergeToFinal` succeeds, returns an empty list of dependent
identifiers and leaves the Final Store as it is, whatever the Final Store holds. -/
theorem MergeToFinal_read_only_of_no_nil (tbl : StagingTable T) (tid : Option T)
    (h : ∀ x ∈ (tidValuesOf tbl tid).entries, ∃ e, x.2 = some e ∧ e.dirty = false) :
    ∃ tbl1, MergeToFinal tbl tid = some ((some [], none), tbl1)
      ∧ tbl1.finalVersionizedValue = tbl.finalVersionizedValue := by
  refine ⟨(getVersionizedValuesOfTid tbl tid).2, ?_, getVersionizedValuesOfTid_final tbl tid⟩
  unfold MergeToFinal
  simp only [getVersionizedValuesOfTid_fst, getVersionizedValuesOfTid_final,
    checkVersion_of_no_dirty _ _ h, mergeValues_of_no_dirty _ h]
  simp only [List.length_nil, gt_iff_lt, lt_self_iff_false, ↓reduceIte, Option.some.injEq,
    Prod.mk.injEq, true_and]
  cases hr : (getVersionizedValuesOfTid tbl tid).2 with
  | mk a f =>
    have := getVersionizedValuesOfTid_final tbl tid
    rw [hr] at this
    simp only at this
    rw [← this]

/-- C11 (the code departs from the claim). In `readOnlyTable` transaction 1 has only called
`Get`: its view holds the unwritten entry of `K` and a `nil` slot for `L`, which the Final
Store did not have.  `MergeToFinal 1` does not return success: its second loop reads `dirty`
through the `nil` pointer. -/
theorem MergeToFinal_read_only_panics :
    run (NewStagingTable : StagingTable Nat)
        [Op.Put (some 2) keyK (some [98]) true, Op.MergeToFinal (some 2),
          Op.Get (some 1) keyK, Op.Get (some 1) keyL] = some readOnlyTable
      ∧ (tidValuesOf readOnlyTable (some 1)).entries
        = [⟨Hex keyL, none⟩,
           ⟨Hex keyK, some { tid := some 1, key := keyK, val := some [98], old := 1, new := 2,
                             dirty := false, deleted := false }⟩]
      ∧ MergeToFinal readOnlyTable (some 1) = none :=
  ⟨rfl, rfl, rfl⟩

/-! ## C12: the single error surface -/

/-- Every call other than `MergeToFinal` returns. -/
theorem step_isSome_of_not_merge (tbl : StagingTable T) (o : Op T)
    (h : ∀ tid, o ≠ Op.MergeToFinal tid) : (step tbl o).isSome = true := by
  cases o with
  | Get tid key => rfl
  | Put tid key val dirty =>
    obtain ⟨base, -, hput⟩ := Put_eq tbl tid key val dirty
    simp only [step, hput, Option.map_some', Option.isSome_some]
  | Del tid key =>
    obtain ⟨base, -, hdel⟩ := Del_eq tbl tid key
    simp only [step, hdel, Option.map_some', Option.isSome_some]
  | Purge tid => rfl
  | MergeToFinal tid => exact absurd rfl (h tid)

/-- C12 (the code departs from the claim). A transaction calls `Get` on a key that the Final
Store does not have, which yields absence, and then `MergeToFinal`: the call panics on the
`nil` pointer that `Get` stored in the view, in the second loop when the key is still absent
and in the first loop when another transaction has created the key in between. -/
theorem MergeToFinal_after_absent_Get_faults :
    (Get (NewStagingTable : StagingTable Nat) (some 1) keyK).1 = none
      ∧ run (NewStagingTable : StagingTable Nat)
          [Op.Get (some 1) keyK, Op.MergeToFinal (some 1)] = none
      ∧ (run (NewStagingTable : StagingTable Nat)
          [Op.Get (some 1) keyK, Op.Put (some 2) keyK (some [98]) true]).isSome = true
      ∧ run (NewStagingTable : StagingTable Nat)
          [Op.Get (some 1) keyK, Op.Put (some 2) keyK (some [98]) true,
            Op.MergeToFinal (some 1)] = none :=
  ⟨rfl, rfl, rfl, rfl⟩

/-! ## C13: the frame of `Purge` -/

/-- C13. `Purge` with a non-nil `t` removes the whole view of `t` and leaves the Final Store and
the view of every other identifier as they are; with the `nil` identifier it changes nothing.
After a successful `MergeToFinal t`, `Purge t` leaves the Final Store that the merge produced,
so every installed entry stays as installed. -/
theorem Purge_frame (tbl : StagingTable T) (t : T) :
    (Purge tbl (some t)).allVersionizedValues.lookup t = none
      ∧ (Purge tbl (some t)).finalVersionizedValue = tbl.finalVersionizedValue
      ∧ (∀ t1, t1 ≠ t → (Purge tbl (some t)).allVersionizedValues.lookup t1
          = tbl.allVersionizedValues.lookup t1)
      ∧ Purge tbl none = tbl
      ∧ (∀ deps tbl1, MergeToFinal tbl (some t) = some ((deps, none), tbl1) →
          (Purge tbl1 (some t)).finalVersionizedValue = tbl1.finalVersionizedValue
          ∧ ∀ k e, (tidValuesOf tbl (some t)).lookup k = some (some e) → e.dirty = true →
              (Purge tbl1 (some t)).finalVersionizedValue.lookup k
                = some (some e.CloneForFinal)) := by
  refine ⟨AList.lookup_erase t _, rfl, fun t1 h1 => AList.lookup_erase_ne h1, rfl, ?_⟩
  intro deps tbl1 hm
  refine ⟨rfl, ?_⟩
  intro k e hk hd
  obtain ⟨hmv, -, -⟩ := MergeToFinal_success tbl tbl1 (some t) deps hm
  exact mergeValues_lookup_of_dirty _ (tidValuesOf tbl (some t)).nodupKeys k e
    (AList.mem_lookup_iff.mp hk) hd _ _ hmv

/-! ## C18: the `nil` identifier bypasses staging -/

/-- C18. With the `nil` identifier no view is created or changed by any of the five calls;
`Get` returns the entry that the Final Store holds for the key, as it is and not an increment
of it, and absence when there is none; after `Put` the Final Store entry of the key has the
value `val`, and after `Del` it has the deletion flag set. -/
theorem nil_identifier_bypasses_staging (tbl : StagingTable T) (key : Bytes) :
    (Get tbl none key).1 = mapIndex tbl.finalVersionizedValue (Hex key)
      ∧ (Get tbl none key).2.allVersionizedValues = tbl.allVersionizedValues
      ∧ (∀ val dirty, ∃ e tbl1, Put tbl none key val dirty = some (e, tbl1)
          ∧ mapIndex tbl1.finalVersionizedValue (Hex key) = some e ∧ e.val = val
          ∧ tbl1.allVersionizedValues = tbl.allVersionizedValues)
      ∧ (∃ e tbl1, Del tbl none key = some (e, tbl1)
          ∧ mapIndex tbl1.finalVersionizedValue (Hex key) = some e ∧ e.deleted = true
          ∧ tbl1.allVersionizedValues = tbl.allVersionizedValues)
      ∧ (Purge tbl none).allVersionizedValues = tbl.allVersionizedValues
      ∧ (∀ r tbl1, MergeToFinal tbl none = some (r, tbl1) →
          tbl1.allVersionizedValues = tbl.allVersionizedValues) := by
  refine ⟨?_, getVersionizedValueForUpdate_all_none tbl key false, ?_, ?_, rfl, ?_⟩
  · unfold Get
    cases h : mapIndex (tidValuesOf tbl none) (Hex key) with
    | some e =>
      rw [getVersionizedValueForUpdate_held tbl none key false e h]
      exact h.symm
    | none =>
      rw [getVersionizedValueForUpdate_not_held tbl none key false h]
      have h1 : mapIndex tbl.finalVersionizedValue (Hex key) = none := h
      rw [h1]
      exact congrArg Prod.fst (getAndIncr_absent_read tbl none (Hex key) key h1)
  · intro val dirty
    obtain ⟨base, -, hput⟩ := Put_eq tbl none key val dirty
    refine ⟨_, _, hput, mapIndex_setTidValue_self _ none _ _, rfl, ?_⟩
    rw [setTidValue_all_none, getVersionizedValueForUpdate_all_none]
  · obtain ⟨base, -, hdel⟩ := Del_eq tbl none key
    refine ⟨_, _, hdel, mapIndex_setTidValue_self _ none _ _, rfl, ?_⟩
    rw [setTidValue_all_none, getVersionizedValueForUpdate_all_none]
  · intro r tbl1 hm
    rw [MergeToFinal_all tbl tbl1 none r hm]
    rfl

/-! ## C14: the dependent identifiers -/

/-- What the first loop returns: the running lists extended by what each entry contributes. -/
theorem checkVersion_eq (finalValues : stagingValuesMap T)
    (l : List (Σ _ : String, Option (VersionizedValueItem T))) :
    ∀ (d : List (Option T)) (c : List (String × Option T)) (d1 : List (Option T))
      (c1 : List (String × Option T)),
      checkVersion finalValues l d c = some (d1, c1) →
      d1 = d ++ l.filterMap (dependentOf finalValues)
        ∧ c1 = c ++ l.filterMap (conflictOf finalValues) := by
  induction l with
  | nil =>
    intro d c d1 c1 h
    simp only [checkVersion, Option.some.injEq, Prod.mk.injEq] at h
    simp [h.1, h.2]
  | cons x rest ih =>
    intro d c d1 c1 h
    obtain ⟨k, v⟩ := x
    simp only [checkVersion] at h
    split at h
    · rename_i hf
      have := ih _ _ _ _ h
      simpa [List.filterMap_cons, dependentOf, conflictOf, hf] using this
    · rename_i f hf
      split at h
      · exact absurd h (by simp)
      · rename_i item
        split at h
        · rename_i hd
          have := ih _ _ _ _ h
          simpa [List.filterMap_cons, dependentOf, conflictOf, hf, hd] using this
        · rename_i hd
          have hd1 : item.dirty = true := by simpa using hd
          split at h
          · rename_i hne
            have := ih _ _ _ _ h
            simpa [List.filterMap_cons, dependentOf, conflictOf, hf, hd1, hne] using this
          · rename_i heq
            have heq1 : item.old = f.new := by simpa using heq
            have := ih _ _ _ _ h
            simpa [List.filterMap_cons, dependentOf, conflictOf, hf, hd1, heq1] using this

/-- A successful `MergeToFinal` returns the list that the first loop built, and that loop
recorded no conflict. -/
theorem MergeToFinal_success_check (tbl tbl1 : StagingTable T) (tid : Option T)
    (deps : Option (List (Option T)))
    (h : MergeToFinal tbl tid = some ((deps, none), tbl1)) :
    ∃ d, deps = some d
      ∧ checkVersion tbl.finalVersionizedValue (tidValuesOf tbl tid).entries [] []
        = some (d, []) := by
  unfold MergeToFinal at h
  simp only [getVersionizedValuesOfTid_fst, getVersionizedValuesOfTid_final] at h
  split at h
  · exact absurd h (by simp)
  · rename_i d c hc
    split at h
    · simp at h
    · rename_i hlen
      have hc0 : c = [] := by
        cases c with
        | nil => rfl
        | cons a rest => simp at hlen
      subst hc0
      split at h
      · exact absurd h (by simp)
      · simp only [Option.some.injEq, Prod.mk.injEq] at h
        exact ⟨d, h.1.1.symm, hc⟩

/-- C14. When `MergeToFinal` succeeds, the returned list is made of the entries of the map of
`tid`, which has each key once: one element for each key held with write intent that has a Final
Store entry, namely the owner of that Final Store entry before the merge, and nothing for any
other key; the owner of a zero-version baseline is the `nil` identifier.  The list is given in
the order in which the map is visited, hence in particular as a multiset. -/
theorem MergeToFinal_dependent_identifiers (tbl tbl1 : StagingTable T) (tid : Option T)
    (deps : Option (List (Option T)))
    (h : MergeToFinal tbl tid = some ((deps, none), tbl1)) :
    deps = some ((tidValuesOf tbl tid).entries.filterMap
        (writtenOwner tbl.finalVersionizedValue))
      ∧ (∃ d, deps = some d ∧ (d : Multiset (Option T))
          = Multiset.ofList ((tidValuesOf tbl tid).entries.filterMap
              (writtenOwner tbl.finalVersionizedValue)))
      ∧ (tidValuesOf tbl tid).entries.NodupKeys
      ∧ ∀ key : Bytes, (NewDefaultVersionizedValueItem key : VersionizedValueItem T).tid
          = none := by
  obtain ⟨d, hd, hc⟩ := MergeToFinal_success_check tbl tbl1 tid deps h
  obtain ⟨hdeps, hconf⟩ := checkVersion_eq _ _ _ _ _ _ hc
  have hnone : ∀ x ∈ (tidValuesOf tbl tid).entries,
      conflictOf tbl.finalVersionizedValue x = none := by
    intro x hx
    have h0 : List.filterMap (conflictOf tbl.finalVersionizedValue)
        (tidValuesOf tbl tid).entries = [] := by simpa using hconf.symm
    rw [List.filterMap_eq_nil_iff] at h0
    exact h0 x hx
  have heq : (tidValuesOf tbl tid).entries.filterMap (dependentOf tbl.finalVersionizedValue)
      = (tidValuesOf tbl tid).entries.filterMap (writtenOwner tbl.finalVersionizedValue) := by
    apply List.filterMap_congr
    intro x hx
    have hx0 := hnone x hx
    obtain ⟨k, v⟩ := x
    simp only [conflictOf, dependentOf, writtenOwner] at hx0 ⊢
    cases hf : mapIndex tbl.finalVersionizedValue k with
    | none => cases v <;> simp
    | some f =>
      cases v with
      | none => simp
      | some e =>
        simp only [hf] at hx0 ⊢
        by_cases hdirty : e.dirty = true
        · by_cases hver : e.old = f.new
          · simp [hdirty, hver]
          · simp [hdirty, hver] at hx0
        · simp [hdirty]
  have hfinal : deps = some ((tidValuesOf tbl tid).entries.filterMap
      (writtenOwner tbl.finalVersionizedValue)) := by
    rw [hd, hdeps, List.nil_append, heq]
  exact ⟨hfinal, ⟨_, hfinal, rfl⟩, (tidValuesOf tbl tid).nodupKeys, fun _ => rfl⟩

/-- C14 at a concrete table: transaction 1 wrote `K` from the revision that transaction 2 had
committed, so its merge depends on transaction 2. -/
theorem MergeToFinal_dependent_identifiers_witness :
    MergeToFinal lateWriterTable (some 1)
        = some ((some [some 2], none),
            tableAfter [Op.Put (some 2) keyK (some [98]) true, Op.MergeToFinal (some 2),
              Op.Put (some 1) keyK (some [97]) true, Op.MergeToFinal (some 1)])
      ∧ some [some 2] = some ((tidValuesOf lateWriterTable (some 1)).entries.filterMap
          (writtenOwner lateWriterTable.finalVersionizedValue)) :=
  ⟨rfl, (MergeToFinal_dependent_identifiers lateWriterTable _ (some 1) (some [some 2])
    (by rfl)).1⟩

/-! ## Keys that the first loop passes over -/

/-- Entries that contribute nothing can be left out of a `filterMap`. -/
theorem filterMap_filter_of_none {α β : Type} (g : α → Option β) (p : α → Bool) (l : List α)
    (h : ∀ x ∈ l, p x = false → g x = none) :
    l.filterMap g = (l.filter p).filterMap g := by
  induction l with
  | nil => rfl
  | cons x rest ih =>
    have ih1 := ih (fun y hy => h y (List.mem_cons_of_mem _ hy))
    cases hp : p x with
    | true => simp only [List.filter_cons, hp, ↓reduceIte, List.filterMap_cons, ih1]
    | false =>
      have hx := h x (List.mem_cons_self _ _) hp
      simp only [List.filter_cons, hp, Bool.false_eq_true, ↓reduceIte, List.filterMap_cons, hx,
        ih1]

/-- The first loop passes over a key that the Final Store has no entry for: it records no
conflict for the key, and its dependent identifiers are those of the other keys. -/
theorem checkVersion_skips_absent_final (finalValues : stagingValuesMap T)
    (l : List (Σ _ : String, Option (VersionizedValueItem T))) (k : String)
    (hfin : mapIndex finalValues k = none) (d : List (Option T))
    (c : List (String × Option T)) (hc : checkVersion finalValues l [] [] = some (d, c)) :
    (∀ p ∈ c, p.1 ≠ k)
      ∧ d = (l.filter (fun x => decide (x.1 ≠ k))).filterMap (dependentOf finalValues) := by
  obtain ⟨hdeps, hconf⟩ := checkVersion_eq _ _ _ _ _ _ hc
  constructor
  · intro p hp
    rw [hconf, List.nil_append, List.mem_filterMap] at hp
    obtain ⟨x, -, hx⟩ := hp
    obtain ⟨k0, v⟩ := x
    intro hpk
    cases hf : mapIndex finalValues k0 with
    | none => cases v <;> simp [conflictOf, hf] at hx
    | some f =>
      cases v with
      | none => simp [conflictOf, hf] at hx
      | some e0 =>
        simp only [conflictOf, hf] at hx
        split at hx
        · simp only [Option.some.injEq] at hx
          rw [← hx] at hpk
          simp only at hpk
          rw [hpk, hfin] at hf
          exact absurd hf (by simp)
        · exact absurd hx (by simp)
  · rw [hdeps, List.nil_append]
    apply filterMap_filter_of_none
    intro x _ hx
    have hxk : x.1 = k := by simpa using hx
    obtain ⟨k0, v⟩ := x
    simp only at hxk
    subst hxk
    simp only [dependentOf, hfin]

/-! ## Where the entries of the Final Store come from -/

/-- What the second loop leaves at a key: the slot that was there, or the clone of a written
entry of the view. -/
theorem mergeValues_lookup_cases (l : List (Σ _ : String, Option (VersionizedValueItem T)))
    (hnd : l.NodupKeys) (finalValues finalValues1 : stagingValuesMap T)
    (h : mergeValuesDone l finalValues = some finalValues1) (k : String) :
    finalValues1.lookup k = finalValues.lookup k
      ∨ ∃ e, (⟨k, some e⟩ : Σ _ : String, Option (VersionizedValueItem T)) ∈ l
          ∧ e.dirty = true ∧ finalValues1.lookup k = some (some e.CloneForFinal) := by
  by_cases hex : ∃ e, (⟨k, some e⟩ : Σ _ : String, Option (VersionizedValueItem T)) ∈ l
      ∧ e.dirty = true
  · obtain ⟨e, hmem, hd⟩ := hex
    exact Or.inr ⟨e, hmem, hd, mergeValues_lookup_of_dirty l hnd k e hmem hd _ _ h⟩
  · refine Or.inl (mergeValues_lookup_of_not_dirty l k ?_ _ _ h)
    intro e he
    cases hd : e.dirty with
    | false => rfl
    | true => exact absurd ⟨e, he, hd⟩ hex

/-- A successful `MergeToFinal` found no conflicting entry. -/
theorem MergeToFinal_success_no_conflict (tbl tbl1 : StagingTable T) (tid : Option T)
    (deps : Option (List (Option T)))
    (h : MergeToFinal tbl tid = some ((deps, none), tbl1)) :
    ∀ x ∈ (tidValuesOf tbl tid).entries,
      ¬ Conflicting tbl.finalVersionizedValue x.1 x.2 := by
  intro x hx hconf
  obtain ⟨d, -, hc⟩ := MergeToFinal_success_check tbl tbl1 tid deps h
  have := checkVersion_conflicts_lt _ _ ⟨x, hx, hconf⟩ _ _ _ _ hc
  simp at this

theorem finalOrigin_trans {k : String} {a b c : StagingTable T} (h1 : FinalOrigin k a b)
    (h2 : FinalOrigin k b c) : FinalOrigin k a c := by
  intro f1 hf1
  rcases h2 f1 hf1 with ⟨f, hf, ho, hn⟩ | hz | hi
  · rcases h1 f hf with ⟨f0, hf0, ho0, hn0⟩ | hz | hi
    · exact Or.inl ⟨f0, hf0, ho0.trans ho, hn0.trans hn⟩
    · exact Or.inr (Or.inl ⟨ho ▸ hz.1, hn ▸ hz.2⟩)
    · exact Or.inr (Or.inr (by rw [← ho, ← hn]; exact hi))
  · exact Or.inr (Or.inl hz)
  · exact Or.inr (Or.inr hi)

theorem finalOrigin_of_eq {k : String} {a b : StagingTable T}
    (h : mapIndex b.finalVersionizedValue k = mapIndex a.finalVersionizedValue k) :
    FinalOrigin k a b :=
  fun f1 hf1 => Or.inl ⟨f1, h ▸ hf1, rfl, rfl⟩

/-- The method `getVersionizedValueForUpdate` touches the Final Store at its own key only. -/
theorem getVersionizedValueForUpdate_final_ne (tbl : StagingTable T) (tid : Option T)
    (key : Bytes) (c : Bool) (k : String) (hk : k ≠ Hex key) :
    mapIndex (getVersionizedValueForUpdate tbl tid key c).2.finalVersionizedValue k
      = mapIndex tbl.finalVersionizedValue k := by
  cases h : mapIndex (tidValuesOf tbl tid) (Hex key) with
  | some e => rw [getVersionizedValueForUpdate_held tbl tid key c e h]
  | none =>
    rw [getVersionizedValueForUpdate_not_held tbl tid key c h]
    have hg := getAndIncr_final_ne (getVersionizedValuesOfTid tbl tid).2 tid (Hex key) key c
      k hk
    rw [getVersionizedValuesOfTid_final] at hg
    cases tid with
    | some t => rw [setTidValue_final_some]; exact hg
    | none =>
      show mapIndex (AList.insert (Hex key) _ _) k = _
      rw [mapIndex_insert_ne _ _ hk]
      exact hg

/-- The Final Store under `getVersionizedValueForUpdate`: an entry is the one that was there, a
new zero-version baseline, or an increment. -/
theorem getVersionizedValueForUpdate_finalOrigin (tbl : StagingTable T) (tid : Option T)
    (key : Bytes) (c : Bool) (k : String) :
    FinalOrigin k tbl (getVersionizedValueForUpdate tbl tid key c).2 := by
  by_cases hk : k = Hex key
  · subst hk
    cases h : mapIndex (tidValuesOf tbl tid) (Hex key) with
    | some e =>
      rw [getVersionizedValueForUpdate_held tbl tid key c e h]
      exact finalOrigin_of_eq rfl
    | none =>
      cases tid with
      | some t =>
        intro f1 hf1
        rw [getVersionizedValueForUpdate_final_some] at hf1
        split at hf1
        · rw [mapIndex_insert_self, Option.some.injEq] at hf1
          rw [← hf1]
          exact Or.inr (Or.inl ⟨rfl, rfl⟩)
        · exact Or.inl ⟨f1, hf1, rfl, rfl⟩
      | none =>
        intro f1 hf1
        rw [getVersionizedValueForUpdate_not_held tbl none key c h] at hf1
        have hs := mapIndex_setTidValue_self
          (getAndIncrValueFromFinalVersionValue (getVersionizedValuesOfTid tbl none).2 none
            (Hex key) key c).2 none (Hex key)
          (getAndIncrValueFromFinalVersionValue (getVersionizedValuesOfTid tbl none).2 none
            (Hex key) key c).1
        simp only [tidValuesOf] at hs
        rw [hs] at hf1
        obtain ⟨f, -, hef⟩ := getAndIncr_derived _ _ _ _ _ f1 hf1
        rw [hef]
        exact Or.inr (Or.inr rfl)
  · exact finalOrigin_of_eq (getVersionizedValueForUpdate_final_ne tbl tid key c k hk)

/-- The Final Store under a field write through the pointer that the map of `tid` holds. -/
theorem setTidValue_finalOrigin (tbl : StagingTable T) (tid : Option T) (keyStr : String)
    (base e : VersionizedValueItem T) (k : String)
    (hbase : mapIndex (tidValuesOf tbl tid) keyStr = some base) (hold : e.old = base.old)
    (hnew : e.new = base.new) :
    FinalOrigin k tbl (setTidValue tbl tid keyStr (some e)) := by
  cases tid with
  | some t => exact finalOrigin_of_eq rfl
  | none =>
    by_cases hk : k = keyStr
    · subst hk
      intro f1 hf1
      have hs := mapIndex_setTidValue_self tbl none k (some e)
      simp only [tidValuesOf] at hs hbase
      rw [hs, Option.some.injEq] at hf1
      subst hf1
      exact Or.inl ⟨base, hbase, hold.symm, hnew.symm⟩
    · exact finalOrigin_of_eq (mapIndex_insert_ne _ _ hk)

/-- Every call keeps the two version invariants. -/
theorem step_versions (tbl tbl1 : StagingTable T) (o : Op T) (h : step tbl o = some tbl1)
    (hv : ViewVersions tbl) (hf : FinalVersions tbl) : FinalVersions tbl1 := by
  have hfrom : ∀ k, FinalOrigin k tbl tbl1 → ∀ f1,
      mapIndex tbl1.finalVersionizedValue k = some f1 →
      (f1.old = 0 ∧ f1.new = 0) ∨ f1.new = f1.old + 1 := by
    intro k ho f1 hf1
    rcases ho f1 hf1 with ⟨f, hf0, hold, hnew⟩ | hz | hi
    · rw [← hold, ← hnew]; exact hf k f hf0
    · exact Or.inl hz
    · exact Or.inr hi
  intro k f1 hf1
  cases o with
  | Get tid key =>
    simp only [step, Get, Option.some.injEq] at h
    subst h
    exact hfrom k (getVersionizedValueForUpdate_finalOrigin tbl tid key false k) f1 hf1
  | Put tid key val dirty =>
    obtain ⟨base, e, hb, ho, hn, ht⟩ := step_Put tbl tbl1 tid key val dirty h
    subst ht
    exact hfrom k (finalOrigin_trans (getVersionizedValueForUpdate_finalOrigin tbl tid key true k)
      (setTidValue_finalOrigin _ tid (Hex key) base e k hb ho hn)) f1 hf1
  | Del tid key =>
    obtain ⟨base, e, hb, ho, hn, ht⟩ := step_Del tbl tbl1 tid key h
    subst ht
    exact hfrom k (finalOrigin_trans (getVersionizedValueForUpdate_finalOrigin tbl tid key true k)
      (setTidValue_finalOrigin _ tid (Hex key) base e k hb ho hn)) f1 hf1
  | Purge tid =>
    simp only [step, Option.some.injEq] at h
    subst h
    cases tid with
    | none => exact hf k f1 hf1
    | some u => exact hf k f1 hf1
  | MergeToFinal tid =>
    simp only [step, Option.map_eq_some', Prod.exists, exists_eq_right] at h
    obtain ⟨d, err, hm⟩ := h
    cases err with
    | some err =>
      cases err
      rw [(MergeToFinal_conflict_unchanged tbl tbl1 tid d hm).1] at hf1
      exact hf k f1 hf1
    | none =>
      obtain ⟨hmv, -, -⟩ := MergeToFinal_success tbl tbl1 tid d hm
      rw [mapIndex_eq_some_iff] at hf1
      rcases mergeValues_lookup_cases _ (tidValuesOf tbl tid).nodupKeys _ _ hmv k with
        hsame | ⟨e, hmem, -, hclone⟩
      · rw [hsame] at hf1
        exact hf k f1 ((mapIndex_eq_some_iff _ _ _).mpr hf1)
      · rw [hclone] at hf1
        simp only [Option.some.injEq] at hf1
        subst hf1
        have he : mapIndex (tidValuesOf tbl tid) k = some e :=
          (mapIndex_eq_some_iff _ _ _).mpr (AList.mem_lookup_iff.mpr hmem)
        cases tid with
        | some u => exact Or.inr (hv u k e he)
        | none => exact hf k e he

theorem FinalVersions_new : FinalVersions (NewStagingTable : StagingTable T) := by
  intro k f hf
  simp [NewStagingTable, mapIndex] at hf

/-- In every reachable table both version invariants hold. -/
theorem run_versions (ops : List (Op T)) :
    ∀ tbl tbl1 : StagingTable T, run tbl ops = some tbl1 → ViewVersions tbl →
      FinalVersions tbl → ViewVersions tbl1 ∧ FinalVersions tbl1 := by
  induction ops with
  | nil =>
    intro tbl tbl1 h hv hf
    simp only [run, Option.some.injEq] at h
    rw [← h]
    exact ⟨hv, hf⟩
  | cons o os ih =>
    intro tbl tbl1 h hv hf
    simp only [run] at h
    cases hs : step tbl o with
    | none => rw [hs] at h; exact absurd h (by simp)
    | some s =>
      rw [hs, Option.some_bind] at h
      exact ih s tbl1 h (run_viewVersions [o] tbl s (by simp [run, hs]) hv)
        (step_versions tbl s o hs hv hf)

/-! ## C16: the version invariant -/

/-- C16. In every table reached from `NewStagingTable` by `Get`, `Put`, `Del`, `Purge` and
`MergeToFinal`, every entry of every view has assigned version = baseline + 1, and every entry
of the Final Store has baseline = assigned version = 0 or assigned version = baseline + 1. -/
theorem version_invariant (ops : List (Op T)) (tbl : StagingTable T)
    (hrun : run NewStagingTable ops = some tbl) :
    (∀ (t : T) (k : String) (e : VersionizedValueItem T),
        mapIndex (tidValuesOf tbl (some t)) k = some e → e.new = e.old + 1)
      ∧ (∀ (k : String) (f : VersionizedValueItem T),
        mapIndex tbl.finalVersionizedValue k = some f →
          (f.old = 0 ∧ f.new = 0) ∨ f.new = f.old + 1) :=
  run_versions ops NewStagingTable tbl hrun ViewVersions_new FinalVersions_new

/-- C16 at a concrete table: after the merge of transaction 1 and the `Put` of transaction 2
on `K`, the view entry is `{old:0, new:1}` and so is the Final Store entry. -/
theorem version_invariant_witness :
    run (NewStagingTable : StagingTable Nat)
        [Op.Put (some 1) keyK (some [97]) true, Op.Put (some 2) keyK (some [98]) true,
          Op.MergeToFinal (some 1)] = some conflictTable
      ∧ (∀ (t : Nat) (k : String) (e : VersionizedValueItem Nat),
          mapIndex (tidValuesOf conflictTable (some t)) k = some e → e.new = e.old + 1)
      ∧ (∀ (k : String) (f : VersionizedValueItem Nat),
          mapIndex conflictTable.finalVersionizedValue k = some f →
            (f.old = 0 ∧ f.new = 0) ∨ f.new = f.old + 1) :=
  ⟨rfl, version_invariant
    [Op.Put (some 1) keyK (some [97]) true, Op.Put (some 2) keyK (some [98]) true,
      Op.MergeToFinal (some 1)] conflictTable (by rfl)⟩

/-! ## Final Store entries persist and their versions only grow, for calls that return -/

/-- One call on a table whose views satisfy the version invariant: an entry of the Final Store
is still there afterwards, its assigned version has not decreased, and it has changed only if
the call is a `MergeToFinal` that succeeded. -/
theorem step_finalGrows (tbl tbl1 : StagingTable T) (o : Op T) (h : step tbl o = some tbl1)
    (hv : ViewVersions tbl) (k : String) (f : VersionizedValueItem T)
    (hf : mapIndex tbl.finalVersionizedValue k = some f) :
    ∃ f1, mapIndex tbl1.finalVersionizedValue k = some f1 ∧ f.new ≤ f1.new
      ∧ (f1.new ≠ f.new → ∃ tid deps, o = Op.MergeToFinal tid
          ∧ MergeToFinal tbl tid = some ((some deps, none), tbl1)) := by
  have hkeep : FinalKeeps k tbl tbl1 → ∃ f1, mapIndex tbl1.finalVersionizedValue k = some f1
      ∧ f.new ≤ f1.new
      ∧ (f1.new ≠ f.new → ∃ tid deps, o = Op.MergeToFinal tid
          ∧ MergeToFinal tbl tid = some ((some deps, none), tbl1)) := by
    intro hk
    obtain ⟨f1, hf1, hn⟩ := hk f hf
    exact ⟨f1, hf1, le_of_eq hn.symm, fun hne => absurd hn hne⟩
  cases o with
  | Get tid key => exact hkeep (step_finalKeeps tbl tbl1 _ h k rfl)
  | Put tid key val dirty => exact hkeep (step_finalKeeps tbl tbl1 _ h k rfl)
  | Del tid key => exact hkeep (step_finalKeeps tbl tbl1 _ h k rfl)
  | Purge tid => exact hkeep (step_finalKeeps tbl tbl1 _ h k rfl)
  | MergeToFinal tid =>
    simp only [step, Option.map_eq_some', Prod.exists, exists_eq_right] at h
    obtain ⟨d, err, hm⟩ := h
    cases err with
    | some err =>
      cases err
      have heq := (MergeToFinal_conflict_unchanged tbl tbl1 tid d hm).1
      exact hkeep (by rw [heq]; exact finalKeeps_refl k tbl)
    | none =>
      obtain ⟨hmv, -, d1, hd1⟩ := MergeToFinal_success tbl tbl1 tid d hm
      subst hd1
      rcases mergeValues_lookup_cases _ (tidValuesOf tbl tid).nodupKeys _ _ hmv k with
        hsame | ⟨e, hmem, hdirty, hclone⟩
      · refine ⟨f, ?_, le_refl _, fun hne => absurd rfl hne⟩
        rw [mapIndex_eq_some_iff, hsame]
        exact (mapIndex_eq_some_iff _ _ _).mp hf
      · have hnc := MergeToFinal_success_no_conflict tbl tbl1 tid _ hm _ hmem
        have hold : e.old = f.new := by
          by_contra hne
          exact hnc ⟨e, f, rfl, hdirty, hf, hne⟩
        have he : mapIndex (tidValuesOf tbl tid) k = some e :=
          (mapIndex_eq_some_iff _ _ _).mpr (AList.mem_lookup_iff.mpr hmem)
        refine ⟨e.CloneForFinal, (mapIndex_eq_some_iff _ _ _).mpr hclone, ?_,
          fun _ => ⟨tid, d1, rfl, hm⟩⟩
        show f.new ≤ e.new
        cases tid with
        | some u =>
          rw [hv u k e he, hold]
          omega
        | none =>
          have hef : mapIndex tbl.finalVersionizedValue k = some e := he
          rw [hf, Option.some.injEq] at hef
          rw [hef]

/-- The behaviour that C17 describes, for the calls that return.  In a table reached from
`NewStagingTable`, for every call that returns and every key: an entry that the Final Store
holds for the key before the call is still held after it, with an
assigned version that is greater or equal; and the assigned version differs only if the call is
a `MergeToFinal` that succeeded. -/
theorem final_entries_persist_and_grow (ops : List (Op T)) (tbl tbl1 : StagingTable T)
    (o : Op T) (k : String) (f : VersionizedValueItem T)
    (hrun : run NewStagingTable ops = some tbl) (hstep : step tbl o = some tbl1)
    (hf : mapIndex tbl.finalVersionizedValue k = some f) :
    ∃ f1, mapIndex tbl1.finalVersionizedValue k = some f1 ∧ f.new ≤ f1.new
      ∧ (f1.new ≠ f.new → ∃ tid deps, o = Op.MergeToFinal tid
          ∧ MergeToFinal tbl tid = some ((some deps, none), tbl1)) :=
  step_finalGrows tbl tbl1 o hstep
    (run_viewVersions ops NewStagingTable tbl hrun ViewVersions_new) k f hf

/-- A call that returns, at a concrete table: the merge of transaction 1 raises the assigned version of `K` from
0 to 1. -/
theorem final_entries_persist_and_grow_witness :
    run (NewStagingTable : StagingTable Nat)
        [Op.Put (some 1) keyK (some [97]) true] = some singleWriteTable
      ∧ step singleWriteTable (Op.MergeToFinal (some 1)) = some mergedTable
      ∧ (mapIndex singleWriteTable.finalVersionizedValue (Hex keyK)).map (fun f => f.new)
          = some 0
      ∧ (mapIndex mergedTable.finalVersionizedValue (Hex keyK)).map (fun f => f.new) = some 1
      ∧ ∃ f1, mapIndex mergedTable.finalVersionizedValue (Hex keyK) = some f1
          ∧ (NewDefaultVersionizedValueItem keyK : VersionizedValueItem Nat).new ≤ f1.new
          ∧ (f1.new ≠ (NewDefaultVersionizedValueItem keyK : VersionizedValueItem Nat).new →
              ∃ tid deps, Op.MergeToFinal (some 1) = Op.MergeToFinal tid
                ∧ MergeToFinal singleWriteTable tid = some ((some deps, none), mergedTable)) :=
  ⟨rfl, rfl, rfl, rfl,
    final_entries_persist_and_grow [Op.Put (some 1) keyK (some [97]) true] singleWriteTable
      mergedTable (Op.MergeToFinal (some 1)) (Hex keyK) (NewDefaultVersionizedValueItem keyK)
      (by rfl) (by rfl) (by rfl)⟩

/-! ## C20: views never run ahead of the Final Store -/

/-- Every call keeps the views behind the Final Store. -/
theorem step_viewsBehind (tbl tbl1 : StagingTable T) (o : Op T) (h : step tbl o = some tbl1)
    (hv : ViewVersions tbl) (hb : ViewsBehind tbl) : ViewsBehind tbl1 := by
  intro t k e he
  rcases step_viewOrigin tbl tbl1 o h t k e he with ⟨e0, he0, ho, -⟩ | ⟨f, hf, ho, -⟩
  · obtain ⟨f0, hf0, hle⟩ := hb t k e0 he0
    obtain ⟨f1, hf1, hge, -⟩ := step_finalGrows tbl tbl1 o h hv k f0 hf0
    exact ⟨f1, hf1, by rw [← ho]; exact le_trans hle hge⟩
  · exact ⟨f, hf, le_of_eq ho⟩

theorem run_viewsBehind (ops : List (Op T)) :
    ∀ tbl tbl1 : StagingTable T, run tbl ops = some tbl1 → ViewVersions tbl →
      ViewsBehind tbl → ViewsBehind tbl1 := by
  induction ops with
  | nil =>
    intro tbl tbl1 h _ hb
    simp only [run, Option.some.injEq] at h
    rw [← h]
    exact hb
  | cons o os ih =>
    intro tbl tbl1 h hv hb
    simp only [run] at h
    cases hs : step tbl o with
    | none => rw [hs] at h; exact absurd h (by simp)
    | some s =>
      rw [hs, Option.some_bind] at h
      exact ih s tbl1 h (run_viewVersions [o] tbl s (by simp [run, hs]) hv)
        (step_viewsBehind tbl s o hs hv hb)

theorem ViewsBehind_new : ViewsBehind (NewStagingTable : StagingTable T) := by
  intro t k e he
  simp [NewStagingTable, tidValuesOf, mapIndex] at he

/-- C20. In every table reached from `NewStagingTable` by `Get`, `Put`, `Del`, `Purge` and
`MergeToFinal` (with any identifiers, the non-nil ones in particular), for every entry `e` that
a view holds for a key the Final Store holds an entry `f` for the key, so that the first loop
of `MergeToFinal` does not take its `finalValueItem == nil` branch there, and the baseline of
`e` is at most the assigned version of `f`; when `e` conflicts, the assigned version of `f` is
strictly greater than the baseline of `e`. -/
theorem views_never_run_ahead (ops : List (Op T)) (tbl : StagingTable T)
    (hrun : run NewStagingTable ops = some tbl) (t : T) (k : String)
    (e : VersionizedValueItem T) (he : mapIndex (tidValuesOf tbl (some t)) k = some e) :
    ∃ f, mapIndex tbl.finalVersionizedValue k = some f ∧ e.old ≤ f.new
      ∧ (Conflicting tbl.finalVersionizedValue k (some e) → e.old < f.new) := by
  obtain ⟨f, hf, hle⟩ := run_viewsBehind ops NewStagingTable tbl hrun ViewVersions_new
    ViewsBehind_new t k e he
  refine ⟨f, hf, hle, ?_⟩
  rintro ⟨e1, f1, he1, -, hf1, hne⟩
  simp only [Option.some.injEq] at he1
  subst he1
  rw [hf, Option.some.injEq] at hf1
  subst hf1
  exact lt_of_le_of_ne hle hne

/-- C20 at a concrete table: in `conflictTable` transaction 2 holds `K` with baseline 0 while
the Final Store is at assigned version 1. -/
theorem views_never_run_ahead_witness :
    run (NewStagingTable : StagingTable Nat)
        [Op.Put (some 1) keyK (some [97]) true, Op.Put (some 2) keyK (some [98]) true,
          Op.MergeToFinal (some 1)] = some conflictTable
      ∧ mapIndex (tidValuesOf conflictTable (some 2)) (Hex keyK)
        = some { tid := some 2, key := keyK, val := some [98], old := 0, new := 1,
                 dirty := true, deleted := false }
      ∧ ∃ f, mapIndex conflictTable.finalVersionizedValue (Hex keyK) = some f
          ∧ (0 : Int) ≤ f.new
          ∧ (Conflicting conflictTable.finalVersionizedValue (Hex keyK)
              (some { tid := some 2, key := keyK, val := some [98], old := 0, new := 1,
                      dirty := true, deleted := false }) → (0 : Int) < f.new) :=
  ⟨rfl, rfl,
    views_never_run_ahead
      [Op.Put (some 1) keyK (some [97]) true, Op.Put (some 2) keyK (some [98]) true,
        Op.MergeToFinal (some 1)] conflictTable (by rfl) 2 (Hex keyK) _ (by rfl)⟩

/-! ## C19: the nesting of the two locks -/

/-- The lock events of `getVersionizedValueForUpdate` never hold the two locks together. -/
theorem getVersionizedValueForUpdateLocks_neverNested (tbl : StagingTable T) (tid : Option T)
    (key : Bytes) :
    neverNested [] (getVersionizedValueForUpdateLocks tbl tid key) = true := by
  unfold getVersionizedValueForUpdateLocks
  cases tid with
  | none => split <;> rfl
  | some t => split <;> rfl

/-- C19 (as stated, refuted). `MergeToFinal` with a non-nil identifier acquires the
identifier-index lock while it holds the Final-Store lock: it locks
`finalVersionizedValueMutex` at its entry and then calls `getVersionizedValuesOfTid`, which
locks `tidMutex`. -/
theorem MergeToFinal_nests_locks :
    lockEvents (NewStagingTable : StagingTable Nat) (Op.MergeToFinal (some 1))
        = [LockEvent.Lock Mutex.finalVersionizedValueMutex, LockEvent.Lock Mutex.tidMutex,
           LockEvent.Unlock Mutex.tidMutex, LockEvent.Unlock Mutex.finalVersionizedValueMutex]
      ∧ neverNested []
          (lockEvents (NewStagingTable : StagingTable Nat) (Op.MergeToFinal (some 1)))
        = false :=
  ⟨rfl, rfl⟩

/-- C19 (amended: one nesting, in one order). During a single call of any operation the
Final-Store lock is never acquired while the identifier-index lock is held.  `Get`, `Put`, `Del`,
`Purge`, and `MergeToFinal` with the `nil` identifier never hold the two locks together.
`MergeToFinal` with a non-nil identifier holds the Final-Store lock end to end and, inside it,
acquires and releases the identifier-index lock. -/
theorem locks_nest_in_one_order (tbl : StagingTable T) (o : Op T) :
    finalNeverUnderTid [] (lockEvents tbl o) = true
      ∧ ((∀ t, o ≠ Op.MergeToFinal (some t)) → neverNested [] (lockEvents tbl o) = true)
      ∧ (∀ t, o = Op.MergeToFinal (some t) →
          lockEvents tbl o
            = [LockEvent.Lock Mutex.finalVersionizedValueMutex,
               LockEvent.Lock Mutex.tidMutex, LockEvent.Unlock Mutex.tidMutex,
               LockEvent.Unlock Mutex.finalVersionizedValueMutex]) := by
  have hupd : ∀ tid key,
      finalNeverUnderTid [] (getVersionizedValueForUpdateLocks tbl tid key) = true := by
    intro tid key
    unfold getVersionizedValueForUpdateLocks
    cases tid with
    | none => split <;> rfl
    | some t => split <;> rfl
  cases o with
  | Get tid key =>
    exact ⟨hupd tid key, fun _ => getVersionizedValueForUpdateLocks_neverNested tbl tid key,
      fun t ht => by cases ht⟩
  | Put tid key val dirty =>
    exact ⟨hupd tid key, fun _ => getVersionizedValueForUpdateLocks_neverNested tbl tid key,
      fun t ht => by cases ht⟩
  | Del tid key =>
    exact ⟨hupd tid key, fun _ => getVersionizedValueForUpdateLocks_neverNested tbl tid key,
      fun t ht => by cases ht⟩
  | Purge tid =>
    cases tid with
    | none => exact ⟨rfl, fun _ => rfl, fun t ht => by cases ht⟩
    | some u => exact ⟨rfl, fun _ => rfl, fun t ht => by cases ht⟩
  | MergeToFinal tid =>
    cases tid with
    | none => exact ⟨rfl, fun _ => rfl, fun t ht => by cases ht⟩
    | some u => exact ⟨rfl, fun h => absurd rfl (h u), fun t _ => rfl⟩

/-! ## C21: merge is not repeatable -/

/-- C21. In a table reached from `NewStagingTable`, let the view of the non-nil `t` hold the
entry `e` with write intent for the key `k`, and let `MergeToFinal t` succeed.  Then the view of
`t` is what it was, the Final Store held an entry for `k` whose assigned version was the
baseline of `e` and now holds one whose assigned version is higher by 1, and a `MergeToFinal t`
that follows at once returns the conflict error and leaves the whole table, the Final Store in
particular, as it is. -/
theorem MergeToFinal_not_repeatable (ops : List (Op T)) (tbl tbl1 : StagingTable T) (t : T)
    (k : String) (e : VersionizedValueItem T) (deps : Option (List (Option T)))
    (hrun : run NewStagingTable ops = some tbl)
    (he : mapIndex (tidValuesOf tbl (some t)) k = some e) (hd : e.dirty = true)
    (hm : MergeToFinal tbl (some t) = some ((deps, none), tbl1)) :
    MergeToFinal tbl1 (some t)
        = some ((none, some MergeError.ErrStagingTableKeyConfliction), tbl1)
      ∧ tidValuesOf tbl1 (some t) = tidValuesOf tbl (some t)
      ∧ ∃ f f1, mapIndex tbl.finalVersionizedValue k = some f
          ∧ mapIndex tbl1.finalVersionizedValue k = some f1
          ∧ e.old = f.new ∧ f1.new = f.new + 1 := by
  have hvers := run_viewVersions ops NewStagingTable tbl hrun ViewVersions_new
  obtain ⟨f, hf, -⟩ := run_viewsBehind ops NewStagingTable tbl hrun ViewVersions_new
    ViewsBehind_new t k e he
  obtain ⟨hmv, -, -⟩ := MergeToFinal_success tbl tbl1 (some t) deps hm
  have hnonil := mergeValues_no_nil _ _ _ hmv
  have hview := MergeToFinal_tidValuesOf tbl tbl1 (some t) _ hm t
  have hmem : (⟨k, some e⟩ : Σ _ : String, Option (VersionizedValueItem T))
      ∈ (tidValuesOf tbl (some t)).entries :=
    AList.mem_lookup_iff.mp ((mapIndex_eq_some_iff _ _ _).mp he)
  have hfin1 : mapIndex tbl1.finalVersionizedValue k = some e.CloneForFinal := by
    rw [mapIndex_eq_some_iff]
    exact mergeValues_lookup_of_dirty _ (tidValuesOf tbl (some t)).nodupKeys k e hmem hd
      _ _ hmv
  have hnew : e.CloneForFinal.new = e.old + 1 := hvers t k e he
  have hold : e.old = f.new := by
    by_contra hne
    exact MergeToFinal_success_no_conflict tbl tbl1 (some t) deps hm _ hmem
      ⟨e, f, rfl, hd, hf, hne⟩
  refine ⟨?_, hview, f, e.CloneForFinal, hf, hfin1, hold, by rw [hnew, hold]⟩
  apply (MergeToFinal_of_no_nil tbl1 (some t) (by rw [hview]; exact hnonil)).1
  refine ⟨⟨k, some e⟩, by rw [hview]; exact hmem, e, e.CloneForFinal, rfl, hd, hfin1, ?_⟩
  rw [hnew]
  omega

/-- C21 at a concrete table: transaction 1 writes `K` on a new table and merges twice. -/
theorem MergeToFinal_not_repeatable_witness :
    run (NewStagingTable : StagingTable Nat)
        [Op.Put (some 1) keyK (some [97]) true] = some singleWriteTable
      ∧ mapIndex (tidValuesOf singleWriteTable (some 1)) (Hex keyK)
        = some { tid := some 1, key := keyK, val := some [97], old := 0, new := 1,
                 dirty := true, deleted := false }
      ∧ MergeToFinal singleWriteTable (some 1) = some ((some [none], none), mergedTable)
      ∧ MergeToFinal mergedTable (some 1)
        = some ((none, some MergeError.ErrStagingTableKeyConfliction), mergedTable) :=
  ⟨rfl, rfl, rfl,
    (MergeToFinal_not_repeatable [Op.Put (some 1) keyK (some [97]) true] singleWriteTable
      mergedTable 1 (Hex keyK)
      { tid := some 1, key := keyK, val := some [97], old := 0, new := 1,
        dirty := true, deleted := false }
      (some [none]) (by rfl) (by rfl) rfl (by rfl)).1⟩

/-! ## The table that `MergeToFinal` leaves behind -/

/-- When `MergeToFinal` returns, the table that it leaves behind is the table that it returns. -/
theorem MergeToFinalLeaves_of_returns (tbl tbl1 : StagingTable T) (tid : Option T)
    (r : Option (List (Option T)) × Option MergeError)
    (h : MergeToFinal tbl tid = some (r, tbl1)) : MergeToFinalLeaves tbl tid = tbl1 := by
  unfold MergeToFinal at h
  unfold MergeToFinalLeaves
  cases hc : checkVersion (getVersionizedValuesOfTid tbl tid).2.finalVersionizedValue
      (getVersionizedValuesOfTid tbl tid).1.entries [] [] with
  | none => simp [hc] at h
  | some dc =>
    obtain ⟨d, c⟩ := dc
    simp only [hc] at h ⊢
    by_cases hlen : c.length > 0
    · rw [if_pos hlen] at h ⊢
      simp only [Option.some.injEq, Prod.mk.injEq] at h
      exact h.2
    · rw [if_neg hlen] at h ⊢
      cases hm : mergeValuesDone (getVersionizedValuesOfTid tbl tid).1.entries
          (getVersionizedValuesOfTid tbl tid).2.finalVersionizedValue with
      | none => simp [hm] at h
      | some fv1 =>
        simp only [hm, Option.some.injEq, Prod.mk.injEq] at h
        rw [← h.2]
        unfold mergeValuesDone at hm
        split at hm
        · simp only [Option.some.injEq] at hm
          rw [hm]
        · exact absurd hm (by simp)

/-- What the second loop has left at a key, at its end or at its panic: the slot that was there,
or the clone of a written entry of the view. -/
theorem mergeValues_fst_lookup_cases
    (l : List (Σ _ : String, Option (VersionizedValueItem T))) (k : String) :
    ∀ finalValues : stagingValuesMap T,
      (mergeValues l finalValues).1.lookup k = finalValues.lookup k
        ∨ ∃ e, (⟨k, some e⟩ : Σ _ : String, Option (VersionizedValueItem T)) ∈ l
            ∧ e.dirty = true
            ∧ (mergeValues l finalValues).1.lookup k = some (some e.CloneForFinal) := by
  induction l with
  | nil => intro fv; exact Or.inl rfl
  | cons x rest ih =>
    intro fv
    obtain ⟨k0, v⟩ := x
    cases v with
    | none => exact Or.inl rfl
    | some item =>
      simp only [mergeValues]
      cases hd : item.dirty with
      | false =>
        simp only [↓reduceIte]
        rcases ih fv with h | ⟨e, hmem, hde, hl⟩
        · exact Or.inl h
        · exact Or.inr ⟨e, List.mem_cons_of_mem _ hmem, hde, hl⟩
      | true =>
        simp only [Bool.true_eq_false, ↓reduceIte]
        rcases ih (fv.insert k0 (some item.CloneForFinal)) with h | ⟨e, hmem, hde, hl⟩
        · by_cases hk : k = k0
          · subst hk
            refine Or.inr ⟨item, List.mem_cons_self _ _, hd, ?_⟩
            rw [h]
            exact AList.lookup_insert _
          · refine Or.inl ?_
            rw [h]
            exact AList.lookup_insert_ne hk
        · exact Or.inr ⟨e, List.mem_cons_of_mem _ hmem, hde, hl⟩

/-- The Final Store that `MergeToFinal` leaves behind is the one it found, or, after a first
loop without conflict, the one that the second loop has written. -/
theorem MergeToFinalLeaves_final_cases (tbl : StagingTable T) (tid : Option T) :
    (MergeToFinalLeaves tbl tid).finalVersionizedValue = tbl.finalVersionizedValue
      ∨ ∃ d, checkVersion tbl.finalVersionizedValue (tidValuesOf tbl tid).entries [] []
            = some (d, [])
          ∧ (MergeToFinalLeaves tbl tid).finalVersionizedValue
            = (mergeValues (tidValuesOf tbl tid).entries tbl.finalVersionizedValue).1 := by
  unfold MergeToFinalLeaves
  simp only [getVersionizedValuesOfTid_fst, getVersionizedValuesOfTid_final]
  split
  · exact Or.inl (getVersionizedValuesOfTid_final tbl tid)
  · rename_i d c hc
    split
    · exact Or.inl (getVersionizedValuesOfTid_final tbl tid)
    · rename_i hlen
      have hc0 : c = [] := by
        cases c with
        | nil => rfl
        | cons a rest => simp at hlen
      subst hc0
      exact Or.inr ⟨d, hc, rfl⟩

/-- The first two parts of C17 also hold for a `MergeToFinal` that panics: in the table that the
call leaves behind, whether it returned or not, an entry that the Final Store held is still
there and its assigned version has not decreased. -/
theorem MergeToFinalLeaves_final_grows (ops : List (Op T)) (tbl : StagingTable T)
    (tid : Option T) (k : String) (f : VersionizedValueItem T)
    (hrun : run NewStagingTable ops = some tbl)
    (hf : mapIndex tbl.finalVersionizedValue k = some f) :
    ∃ f1, mapIndex (MergeToFinalLeaves tbl tid).finalVersionizedValue k = some f1
      ∧ f.new ≤ f1.new := by
  have hv := run_viewVersions ops NewStagingTable tbl hrun ViewVersions_new
  rcases MergeToFinalLeaves_final_cases tbl tid with hsame | ⟨d, hc, hmv⟩
  · exact ⟨f, by rw [hsame]; exact hf, le_refl _⟩
  · rw [hmv]
    rcases mergeValues_fst_lookup_cases (tidValuesOf tbl tid).entries k
      tbl.finalVersionizedValue with h | ⟨e, hmem, hd, hl⟩
    · refine ⟨f, ?_, le_refl _⟩
      rw [mapIndex_eq_some_iff, h]
      exact (mapIndex_eq_some_iff _ _ _).mp hf
    · have hold : e.old = f.new := by
        by_contra hne
        have := checkVersion_conflicts_lt _ _
          ⟨⟨k, some e⟩, hmem, e, f, rfl, hd, hf, hne⟩ _ _ _ _ hc
        simp at this
      have he : mapIndex (tidValuesOf tbl tid) k = some e :=
        (mapIndex_eq_some_iff _ _ _).mpr (AList.mem_lookup_iff.mpr hmem)
      refine ⟨e.CloneForFinal, (mapIndex_eq_some_iff _ _ _).mpr hl, ?_⟩
      show f.new ≤ e.new
      cases tid with
      | some u =>
        rw [hv u k e he, hold]
        omega
      | none =>
        have hef : mapIndex tbl.finalVersionizedValue k = some e := he
        rw [hf, Option.some.injEq] at hef
        rw [hef]

/-! ## C17: Final Store entries persist and their versions only grow -/

/-- C17 (the code departs from the claim). `raceTable` is reached by `Get(1, L)`,
`Put(1, K, "a", true)`, `Put(2, K, "b", true)`; the Final Store entry of `K` has assigned
version 0 and the view of transaction 1 holds the written `K` before the `nil` slot of `L`.
`MergeToFinal 1` does not succeed: it panics on the `nil` slot.  Yet in the table that it leaves
behind the entry of `K` has assigned version 1: the second loop had installed `K` in place
before it reached `L`.  So a `MergeToFinal` that did not succeed has changed the assigned
version of an existing Final Store entry. -/
theorem MergeToFinal_panic_after_install :
    run (NewStagingTable : StagingTable Nat)
        [Op.Get (some 1) keyL, Op.Put (some 1) keyK (some [97]) true,
          Op.Put (some 2) keyK (some [98]) true] = some raceTable
      ∧ (tidValuesOf raceTable (some 1)).keys = [Hex keyK, Hex keyL]
      ∧ (mapIndex raceTable.finalVersionizedValue (Hex keyK)).map (fun f => (f.old, f.new))
          = some (0, 0)
      ∧ MergeToFinal raceTable (some 1) = none
      ∧ (mapIndex (MergeToFinalLeaves raceTable (some 1)).finalVersionizedValue (Hex keyK)).map
          (fun f => (f.old, f.new)) = some (0, 1) :=
  ⟨rfl, rfl, rfl, rfl, rfl⟩

/-! ## C8: read-no-create -/

/-- In a reachable table, the map of `tid` holds no entry for a key that the Final Store has no
entry for. -/
theorem tidValuesOf_none_of_final_none (ops : List (Op T)) (tbl : StagingTable T)
    (tid : Option T) (k : String) (hrun : run NewStagingTable ops = some tbl)
    (hfin : mapIndex tbl.finalVersionizedValue k = none) :
    mapIndex (tidValuesOf tbl tid) k = none := by
  cases tid with
  | none => exact hfin
  | some t =>
    cases h : mapIndex (tidValuesOf tbl (some t)) k with
    | none => rfl
    | some e =>
      obtain ⟨f, hf, -⟩ := run_viewsBehind ops NewStagingTable tbl hrun ViewVersions_new
        ViewsBehind_new t k e h
      rw [hfin] at hf
      exact absurd hf (by simp)

/-- C8. In every table reached from `NewStagingTable`, for every identifier, the `nil` one
included, and every key that has no entry in the Final Store: `Get` returns absence, and the
Final Store is unchanged, that is, no key of it gains an entry or has its entry changed; for a
non-nil identifier the Final Store map is the very map it was. -/
theorem Get_absent_reads_nothing (ops : List (Op T)) (tbl : StagingTable T) (tid : Option T)
    (key : Bytes) (hrun : run NewStagingTable ops = some tbl)
    (hfin : mapIndex tbl.finalVersionizedValue (Hex key) = none) :
    (Get tbl tid key).1 = none
      ∧ (∀ k, mapIndex (Get tbl tid key).2.finalVersionizedValue k
          = mapIndex tbl.finalVersionizedValue k)
      ∧ (tid ≠ none →
          (Get tbl tid key).2.finalVersionizedValue = tbl.finalVersionizedValue) :=
  Get_absent_of_unheld tbl tid key hfin
    (tidValuesOf_none_of_final_none ops tbl tid (Hex key) hrun hfin)

/-- C8 at a concrete table: after transaction 1 has written `K`, the Final Store has `K` but
not `L`; transaction 2 reads `L`. -/
theorem Get_absent_reads_nothing_witness :
    run (NewStagingTable : StagingTable Nat)
        [Op.Put (some 1) keyK (some [97]) true] = some singleWriteTable
      ∧ mapIndex singleWriteTable.finalVersionizedValue (Hex keyL) = none
      ∧ (Get singleWriteTable (some 2) keyL).1 = none
      ∧ (Get singleWriteTable (some 2) keyL).2.finalVersionizedValue
          = singleWriteTable.finalVersionizedValue :=
  ⟨rfl, rfl,
    (Get_absent_reads_nothing [Op.Put (some 1) keyK (some [97]) true] singleWriteTable
      (some 2) keyL (by rfl) (by rfl)).1,
    (Get_absent_reads_nothing [Op.Put (some 1) keyK (some [97]) true] singleWriteTable
      (some 2) keyL (by rfl) (by rfl)).2.2 (by simp)⟩

/-! ## C15: a key without Final Store counterpart -/

/-- C15. In every table reached from `NewStagingTable`, for every identifier and every key `k`
that the Final Store holds no entry for, whatever the map of `tid` holds for `k`: the first
loop of `MergeToFinal` records no conflict for `k` and its dependent identifiers are those of
the other keys, and nothing is merged for `k`: the Final Store still holds no entry for `k` in
the table that `MergeToFinal` returns, and in the table that it leaves behind when it does not
return.  This covers the case of a key that the map of `tid` holds with write intent. -/
theorem MergeToFinal_skips_missing_final (ops : List (Op T)) (tbl : StagingTable T)
    (tid : Option T) (k : String) (hrun : run NewStagingTable ops = some tbl)
    (hfin : mapIndex tbl.finalVersionizedValue k = none) :
    (∀ d c, checkVersion tbl.finalVersionizedValue (tidValuesOf tbl tid).entries [] []
          = some (d, c) →
        (∀ p ∈ c, p.1 ≠ k)
          ∧ d = ((tidValuesOf tbl tid).entries.filter (fun x => decide (x.1 ≠ k))).filterMap
              (dependentOf tbl.finalVersionizedValue))
      ∧ (∀ r tbl1, MergeToFinal tbl tid = some (r, tbl1) →
          mapIndex tbl1.finalVersionizedValue k = none)
      ∧ mapIndex (MergeToFinalLeaves tbl tid).finalVersionizedValue k = none := by
  have hnone := tidValuesOf_none_of_final_none ops tbl tid k hrun hfin
  have hno : ∀ e, (⟨k, some e⟩ : Σ _ : String, Option (VersionizedValueItem T))
      ∉ (tidValuesOf tbl tid).entries := by
    intro e he
    have := (mapIndex_eq_some_iff _ _ _).mpr (AList.mem_lookup_iff.mpr he)
    rw [hnone] at this
    exact absurd this (by simp)
  have hleaves : mapIndex (MergeToFinalLeaves tbl tid).finalVersionizedValue k = none := by
    rcases MergeToFinalLeaves_final_cases tbl tid with hsame | ⟨d, -, hmv⟩
    · rw [hsame]; exact hfin
    · rw [hmv]
      rcases mergeValues_fst_lookup_cases (tidValuesOf tbl tid).entries k
        tbl.finalVersionizedValue with h | ⟨e, hmem, -, -⟩
      · unfold mapIndex at hfin ⊢
        rw [h]
        exact hfin
      · exact absurd hmem (hno e)
  refine ⟨fun d c hc => checkVersion_skips_absent_final _ _ k hfin d c hc, ?_, hleaves⟩
  intro r tbl1 hm
  rw [← MergeToFinalLeaves_of_returns tbl tbl1 tid r hm]
  exact hleaves

/-- C15 at a concrete table: transaction 1 has written `K`; the Final Store has no entry for
`L`, and the merge of transaction 1 leaves it so. -/
theorem MergeToFinal_skips_missing_final_witness :
    run (NewStagingTable : StagingTable Nat)
        [Op.Put (some 1) keyK (some [97]) true] = some singleWriteTable
      ∧ mapIndex singleWriteTable.finalVersionizedValue (Hex keyL) = none
      ∧ MergeToFinal singleWriteTable (some 1) = some ((some [none], none), mergedTable)
      ∧ mapIndex mergedTable.finalVersionizedValue (Hex keyL) = none :=
  ⟨rfl, rfl, rfl,
    (MergeToFinal_skips_missing_final [Op.Put (some 1) keyK (some [97]) true]
      singleWriteTable (some 1) (Hex keyL) (by rfl) (by rfl)).2.1 _ mergedTable (by rfl)⟩

end Mvccdb
